import Mathlib

/- Shallow embedding of the multi-version record reconciliation engine of
scripts/generate_drug_prices.py: the functions version_key, pick_best,
record_key, deduplication_key, deduplicate_records and aggregate_records,
followed by proofs about them. Sorting: Python list.sort and sorted are
stable sorts; they are modelled with List.insertionSort, which is also
stable, applied to the same key-based ordering, so the results coincide. -/

/-- Cell values as produced by the field normalisers of the script
(clean_text, to_int, normalise_decimal, parse_validity): Python None, a
trimmed string, an integer, a decimal rounded to two places (represented
exactly as an integer count of hundredths, since the engine never performs
arithmetic on prices), or a region-slug keyed reference-price mapping. -/
inductive Value where
  | vNone : Value
  | vStr (s : String) : Value
  | vInt (n : Int) : Value
  | vNum (hundredths : Int) : Value
  | vDict (entries : List (String × Int)) : Value
deriving DecidableEq, Repr

/-- Membership test of pick_best: value_a not in (None, "", []). A value is
in that tuple exactly when it is None or the empty string: the empty list
cannot occur as a normalised cell value, and an empty dict compares unequal
to the empty list in Python, so dict values are never in the tuple. -/
def isEmptyV : Value → Bool
  | Value.vNone => true
  | Value.vStr s => s == ""
  | _ => false

/-- Source pick_best (line 255): value_a if value_a not in (None, "", [])
else value_b. -/
def pick_best (value_a value_b : Value) : Value :=
  if isEmptyV value_a then value_b else value_a

/-- RecordField names of the flat records handled by the engine: the targets of
COLUMN_MAP plus the two reference-price maps built by build_record. The
version label is kept as a separate component of the record, since every
record carries one. -/
inductive RecordField where
  | serial_number | product_name | active_substance | atc_code | dose
  | pharmaceutical_form | packaging | marketing_authorisation_holder
  | manufacturer | authorization_number
  | price_wholesale | price_with_margin | price_retail
  | valid_until | reference_prices | reference_prices_secondary
deriving DecidableEq, Fintype, Repr

/-- Dictionary key string of each field, as in the source. -/
def fieldName : RecordField → String
  | RecordField.serial_number => "serial_number"
  | RecordField.product_name => "product_name"
  | RecordField.active_substance => "active_substance"
  | RecordField.atc_code => "atc_code"
  | RecordField.dose => "dose"
  | RecordField.pharmaceutical_form => "pharmaceutical_form"
  | RecordField.packaging => "packaging"
  | RecordField.marketing_authorisation_holder => "marketing_authorisation_holder"
  | RecordField.manufacturer => "manufacturer"
  | RecordField.authorization_number => "authorization_number"
  | RecordField.price_wholesale => "price_wholesale"
  | RecordField.price_with_margin => "price_with_margin"
  | RecordField.price_retail => "price_retail"
  | RecordField.valid_until => "valid_until"
  | RecordField.reference_prices => "reference_prices"
  | RecordField.reference_prices_secondary => "reference_prices_secondary"

/-- Source DESCRIPTOR_FIELDS (lines 52-62). -/
def DESCRIPTOR_FIELDS : List RecordField :=
  [RecordField.product_name, RecordField.active_substance, RecordField.atc_code, RecordField.dose,
   RecordField.pharmaceutical_form, RecordField.packaging,
   RecordField.marketing_authorisation_holder, RecordField.manufacturer,
   RecordField.authorization_number]

/-- Source STATIC_FIELDS (line 64): serial_number plus the descriptors. -/
def STATIC_FIELDS : List RecordField := RecordField.serial_number :: DESCRIPTOR_FIELDS

/-- Source PRICE_FIELDS (line 66). -/
def PRICE_FIELDS : List RecordField :=
  [RecordField.price_wholesale, RecordField.price_with_margin, RecordField.price_retail]

/-- Source PRICE_META_FIELDS (line 68). -/
def PRICE_META_FIELDS : List RecordField :=
  [RecordField.valid_until, RecordField.reference_prices, RecordField.reference_prices_secondary]

/-- Source DEDUPLICATION_FIELDS (lines 70-76). -/
def DEDUPLICATION_FIELDS : List RecordField :=
  [RecordField.atc_code, RecordField.authorization_number, RecordField.product_name,
   RecordField.dose, RecordField.packaging]

/-- One flat record: the version label (always present, since build_record
stores it unconditionally and aggregate_records reads it with a plain
subscript) together with a partial assignment of the other fields. A field
mapped to none is absent from the Python dict; a field mapped to some
Value.vNone is present with value None. Both read back as None under
dict.get, but only present fields are visited by dict.items(). -/
structure Record where
  version : String
  fields : RecordField → Option Value
deriving DecidableEq

instance : Inhabited Record := ⟨{ version := "", fields := fun _ => none }⟩

/-- Dict read record.get(field): absent and present-None both give None. -/
def getVal (r : Record) (f : RecordField) : Value := (r.fields f).getD Value.vNone

/-- Convenience constructor for concrete records in examples. -/
def recOf (v : String) (fs : List (RecordField × Value)) : Record :=
  { version := v, fields := fun f => fs.lookup f }

/-- Split a character list at every dot, as Python str.split(".") does: the
empty string yields one empty component, adjacent dots yield empty
components. -/
def splitDot (acc : List Char) : List Char → List (List Char)
  | [] => [acc.reverse]
  | c :: cs => if c = '.' then acc.reverse :: splitDot [] cs else splitDot (c :: acc) cs

/-- Parse a nonempty run of decimal digits. -/
def parseDigits (cs : List Char) : Option Nat :=
  match cs with
  | [] => none
  | _ =>
    if cs.all Char.isDigit then
      some (cs.foldl (fun n c => n * 10 + (c.toNat - 48)) 0)
    else none

/-- Python int(token) on one version component: surrounding whitespace is
stripped, then one optional sign followed by decimal digits. int accepts a
leading minus, so negative components parse. The tolerance of Python int
for underscore digit grouping and non-ASCII digits is not modelled; no
version label of this dataset uses either. -/
def pyInt (cs0 : List Char) : Option Int :=
  let cs := ((cs0.dropWhile Char.isWhitespace).reverse.dropWhile Char.isWhitespace).reverse
  match cs with
  | '-' :: ds => (parseDigits ds).map (fun n => -(n : Int))
  | '+' :: ds => (parseDigits ds).map (fun n => (n : Int))
  | ds => (parseDigits ds).map (fun n => (n : Int))

/-- Source version_key (lines 210-211): tuple(int(token) for token in
version.split(".")), made fallible because int raises ValueError on a
malformed token. Tuples of integers compare in Python exactly as List Int
compares under its lexicographic linear order. -/
def version_key (version : String) : Option (List Int) :=
  (splitDot [] version.data).mapM pyInt

/-- Version key with a default, used to state ordering facts once every
relevant label is known to parse. -/
def keyD (version : String) : List Int := (version_key version).getD []

/-- Source record_key (lines 251-252): the Aggregation Key, a tuple of
dict.get over all descriptor fields. -/
def record_key (record : Record) : List Value :=
  DESCRIPTOR_FIELDS.map (getVal record)

/-- Source deduplication_key (lines 259-263): the tuple over
DEDUPLICATION_FIELDS, or None when any component is None. -/
def deduplication_key (record : Record) : Option (List Value) :=
  let key := DEDUPLICATION_FIELDS.map (getVal record)
  if key.any (fun v => v == Value.vNone) then none else some key

/-- Merge step of deduplicate_records (lines 279-280): for every key/value
item of the incoming dict (the version label included), assign
existing[field] = pick_best(existing.get(field), value); fields absent from
the incoming record are left untouched. The version branch is
pick_best on the two version strings, both always present. -/
def mergeInto (existing incoming : Record) : Record :=
  { version := if existing.version == "" then incoming.version else existing.version,
    fields := fun f =>
      match incoming.fields f with
      | none => existing.fields f
      | some v => some (pick_best (getVal existing f) v) }

/-- State of the deduplicate_records loop: the registry mapping each seen
Deduplication Key to the output position of its surviving record, plus the
output built so far. The Python code mutates the surviving dict in place;
the same effect is obtained here by updating the output list at the stored
position. -/
structure DState where
  unique : List (List Value × Nat)
  ordered : List Record

def lookupIdx (k : List Value) : List (List Value × Nat) → Option Nat
  | [] => none
  | (k0, i) :: rest => if k0 = k then some i else lookupIdx k rest

/-- One iteration of the deduplicate_records loop (lines 269-280). -/
def dedupStep (st : DState) (record : Record) : DState :=
  match deduplication_key record with
  | none => { st with ordered := st.ordered ++ [record] }
  | some key =>
    match lookupIdx key st.unique with
    | none =>
      { unique := st.unique ++ [(key, st.ordered.length)],
        ordered := st.ordered ++ [record] }
    | some i =>
      match st.ordered[i]? with
      | some existing => { st with ordered := st.ordered.set i (mergeInto existing record) }
      | none => st

/-- Source deduplicate_records (lines 266-281). -/
def deduplicate_records (records : List Record) : List Record :=
  (records.foldl dedupStep { unique := [], ordered := [] }).ordered

/-- Records kept at their first occurrence: a record survives when its
Deduplication Key is None or has not been seen before. Used to state that
the output order of the Deduplicator equals first-occurrence order. -/
def firstOccAux (seen : List (List Value)) : List Record → List Record
  | [] => []
  | r :: rest =>
    match deduplication_key r with
    | none => r :: firstOccAux seen rest
    | some k => if k ∈ seen then firstOccAux seen rest else r :: firstOccAux (k :: seen) rest

def firstOcc (records : List Record) : List Record := firstOccAux [] records

/-- Sparse price snapshot (lines 296-300): the version label plus exactly
the price and price-meta fields whose dict.get is not None. -/
structure Snapshot where
  version : String
  fields : RecordField → Option Value
deriving DecidableEq

def mkSnapshot (record : Record) : Snapshot :=
  { version := record.version,
    fields := fun f =>
      if f ∈ PRICE_FIELDS ++ PRICE_META_FIELDS ∧ getVal record f ≠ Value.vNone then
        some (getVal record f)
      else none }

/-- Bucket state per Aggregation Key (lines 289-294). The data dict holds
the static fields (dict.get of any other field gives None, modelled by
Value.vNone outside STATIC_FIELDS). The initial latest_snapshot stands for
the empty dict; its placeholder version is never read, because the first
record of a bucket always installs its own snapshot. -/
structure Entry where
  data : RecordField → Value
  latest_version : Option String
  latest_snapshot : Snapshot
  history : List Snapshot
deriving DecidableEq

def initEntry (record : Record) : Entry :=
  { data := fun f => if f ∈ STATIC_FIELDS then getVal record f else Value.vNone,
    latest_version := none,
    latest_snapshot := { version := "", fields := fun _ => none },
    history := [] }

/-- Promotion branch (lines 306-310): advance latest_version to the
incoming version, refresh the descriptor snapshot field by field with
pick_best(record.get(field), existing), and install the freshly built price
snapshot as the latest one. -/
def promoteEntry (e : Entry) (record : Record) (snap : Snapshot) : Entry :=
  { e with
    latest_version := some record.version,
    data := fun f =>
      if f ∈ STATIC_FIELDS then pick_best (getVal record f) (e.data f) else e.data f,
    latest_snapshot := snap }

/-- Per-record body of the aggregation loop (lines 295-310): append the
snapshot to the history unconditionally, then promote when the bucket has
no latest version yet, or when the incoming version key is greater than or
equal to the current one. Python evaluates version_key on both labels in
the comparison; a malformed label raises ValueError, hence none here. -/
def entryStep (e : Entry) (record : Record) : Option Entry :=
  let snap := mkSnapshot record
  let e1 := { e with history := e.history ++ [snap] }
  match e.latest_version with
  | none => some (promoteEntry e1 record snap)
  | some lv =>
    match version_key record.version, version_key lv with
    | some kr, some kl => some (if kl ≤ kr then promoteEntry e1 record snap else e1)
    | _, _ => none

def lookupEntry (k : List Value) : List (List Value × Entry) → Option Entry
  | [] => none
  | (k0, e) :: rest => if k0 = k then some e else lookupEntry k rest

def replaceEntry (k : List Value) (e : Entry) (acc : List (List Value × Entry)) :
    List (List Value × Entry) :=
  acc.map (fun p => if p.1 = k then (k, e) else p)

/-- One iteration of the grouping loop of aggregate_records (lines 286-310):
a fresh bucket is appended at the end, matching insertion-order preservation
of Python dicts; an existing bucket is updated in place. -/
def aggStep (acc : List (List Value × Entry)) (record : Record) :
    Option (List (List Value × Entry)) :=
  let k := record_key record
  match lookupEntry k acc with
  | none => (entryStep (initEntry record) record).map (fun e => acc ++ [(k, e)])
  | some e => (entryStep e record).map (fun e2 => replaceEntry k e2 acc)

def aggFold : List (List Value × Entry) → List Record → Option (List (List Value × Entry))
  | acc, [] => some acc
  | acc, r :: rest =>
    match aggStep acc r with
    | none => none
    | some acc2 => aggFold acc2 rest

/-- Values stored in an output Logical Record dict: an ordinary field
value, the latest_version label, or the version_history list. -/
inductive OutValue where
  | val (v : Value) : OutValue
  | ver (v : Option String) : OutValue
  | hist (h : List Snapshot) : OutValue
deriving DecidableEq

/-- Output Logical Record, as the ordered key/value list of a Python dict. -/
abbrev LogicalRecord := List (String × OutValue)

def lookupOut (k : String) : LogicalRecord → Option OutValue
  | [] => none
  | (k0, v) :: rest => if k0 = k then some v else lookupOut k rest

/-- Keys and values inserted for the fields of fs whose projection is
populated, in field order, matching dict insertion order. -/
def fieldSection (fs : List RecordField) (g : RecordField → Option OutValue) : LogicalRecord :=
  fs.filterMap (fun f => (g f).map (fun v => (fieldName f, v)))

/-- Decorate each history snapshot with its version key, as the key
argument of sorted does; fails like Python when a label is malformed (the
key function runs on every element before any comparison). -/
def decorateHistory : List Snapshot → Option (List (List Int × Snapshot))
  | [] => some []
  | s :: rest =>
    match version_key s.version, decorateHistory rest with
    | some k, some ds => some ((k, s) :: ds)
    | _, _ => none

/-- Ordering of the history sort (lines 327-331): descending by version
key. sorted(..., reverse=True) is stable with the original order kept on
equal keys, and insertion sort under this relation behaves identically. -/
def histDescKey (a b : List Int × Snapshot) : Prop := b.1 ≤ a.1

instance : DecidableRel histDescKey :=
  fun a b => (inferInstance : Decidable (b.1 ≤ a.1))

def sortHistory (h : List Snapshot) : Option (List Snapshot) :=
  (decorateHistory h).map
    (fun ds => (List.insertionSort histDescKey ds).map (fun d => d.2))

/-- Static slot of the output dict (lines 315-318): the value of the bucket
data for a static field, or nothing when it is None. -/
def staticOut (e : Entry) (f : RecordField) : Option OutValue :=
  if e.data f = Value.vNone then none else some (OutValue.val (e.data f))

/-- Price/meta slot of the output dict (lines 320-324): the value carried by
the latest snapshot, or nothing when its dict.get returns None. -/
def pmOut (e : Entry) (f : RecordField) : Option OutValue :=
  match e.latest_snapshot.fields f with
  | some v => if v = Value.vNone then none else some (OutValue.val v)
  | none => none

/-- Key/value sequence of one materialised Logical Record (lines 314-332):
populated static fields, then populated price/meta fields of the latest
snapshot, then latest_version and version_history. -/
def buildRecordData (e : Entry) (sortedH : List Snapshot) : LogicalRecord :=
  fieldSection STATIC_FIELDS (staticOut e) ++
    (fieldSection (PRICE_FIELDS ++ PRICE_META_FIELDS) (pmOut e) ++
      [("latest_version", OutValue.ver e.latest_version),
       ("version_history", OutValue.hist sortedH)])

/-- Materialisation of one bucket, fallible through the history sort. -/
def finishEntry (e : Entry) : Option LogicalRecord :=
  (sortHistory e.history).map (buildRecordData e)

def finishAll : List (List Value × Entry) → Option (List LogicalRecord)
  | [] => some []
  | (_, e) :: rest =>
    match finishEntry e, finishAll rest with
    | some lr, some lrs => some (lr :: lrs)
    | _, _ => none

/-- Code-point lexicographic comparison of strings, as Python compares str
values. -/
def charsLt : List Char → List Char → Bool
  | [], [] => false
  | [], _ :: _ => true
  | _ :: _, [] => false
  | c :: cs, d :: ds =>
    if c.toNat < d.toNat then true
    else if d.toNat < c.toNat then false
    else charsLt cs ds

def strLt (a b : String) : Bool := charsLt a.data b.data

/-- The expression record.get(key) or "" of the final sort key (line 335).
The engine only ever stores clean_text strings in the product_name and
packaging slots, so the or-fallback fires exactly on a missing slot or an
empty string; values of other shapes cannot reach these slots. -/
def strOrEmpty : Option OutValue → String
  | some (OutValue.val (Value.vStr s)) => s
  | _ => ""

def resultKey (lr : LogicalRecord) : String × String :=
  (strOrEmpty (lookupOut "product_name" lr), strOrEmpty (lookupOut "packaging" lr))

/-- Ascending lexicographic order on the (product_name, packaging) sort
keys used by results.sort (lines 335-336). -/
def resultOrder (a b : LogicalRecord) : Prop :=
  strLt (resultKey a).1 (resultKey b).1 = true ∨
    ((resultKey a).1 = (resultKey b).1 ∧
      (strLt (resultKey a).2 (resultKey b).2 = true ∨ (resultKey a).2 = (resultKey b).2))

instance : DecidableRel resultOrder :=
  fun a b =>
    (inferInstance : Decidable (strLt (resultKey a).1 (resultKey b).1 = true ∨
      ((resultKey a).1 = (resultKey b).1 ∧
        (strLt (resultKey a).2 (resultKey b).2 = true ∨ (resultKey a).2 = (resultKey b).2))))

/-- Source aggregate_records (lines 284-336): group all records by
Aggregation Key, fold each bucket, materialise every bucket into a Logical
Record, and sort the results by product name and packaging. The function is
fallible: a malformed version label raises ValueError in Python. -/
def aggregate_records (records : List Record) : Option (List LogicalRecord) :=
  match aggFold [] records with
  | none => none
  | some acc =>
    match finishAll acc with
    | none => none
    | some outs => some (List.insertionSort resultOrder outs)

/-- Distinctness of non-null Deduplication Keys between two records. -/
def distinctKeys (a b : Record) : Prop :=
  ∀ k, deduplication_key a = some k → deduplication_key b ≠ some k

/-- Per-bucket restriction of the aggregation fold: the effect of the
grouping loop on the entry of one Aggregation Key, starting from an absent
entry (none) or an existing one. A fresh entry is initialised from the first
record that creates it, exactly as lines 288-294 do. -/
def bfold : Option Entry → List Record → Option (Option Entry)
  | e?, [] => some e?
  | e?, r :: rest =>
    match entryStep (e?.getD (initEntry r)) r with
    | none => none
    | some e2 => bfold (some e2) rest

/-- Records of the input grouped under one Aggregation Key. -/
def bucketOf (records : List Record) (k : List Value) : List Record :=
  records.filter (fun r => decide (record_key r = k))

/- Concrete records used in witnesses and counterexamples. -/

def existingW : Record := recOf "1"
  [(RecordField.atc_code, Value.vStr "A"), (RecordField.authorization_number, Value.vStr "N"),
   (RecordField.product_name, Value.vStr "p"), (RecordField.dose, Value.vStr "d"),
   (RecordField.packaging, Value.vStr "k")]

def rW : Record := recOf "1"
  [(RecordField.atc_code, Value.vStr "A"), (RecordField.authorization_number, Value.vStr "N"),
   (RecordField.product_name, Value.vStr "p"), (RecordField.dose, Value.vStr "d"),
   (RecordField.packaging, Value.vStr "k"), (RecordField.manufacturer, Value.vStr "m")]

def keyW : List Value :=
  [Value.vStr "A", Value.vStr "N", Value.vStr "p", Value.vStr "d", Value.vStr "k"]

def stW : DState := { unique := [(keyW, 0)], ordered := [existingW] }

/-- Record with one price, used for the C1 and C2 inputs. -/
def recPA : Record := recOf "1"
  [(RecordField.product_name, Value.vStr "a"), (RecordField.price_retail, Value.vNum 1000)]

/-- Same name and version as recPA but without any price. -/
def recPB : Record := recOf "1" [(RecordField.product_name, Value.vStr "a")]

/-- Record with a negative version component. -/
def recNeg : Record := recOf "-1" [(RecordField.product_name, Value.vStr "a")]

/-- Record whose only populated field is serial_number. -/
def recSerial : Record := recOf "1" [(RecordField.serial_number, Value.vInt 7)]

/-- Two-version bucket: price 10.00 at version 2.9. -/
def recV9 : Record := recOf "2.9"
  [(RecordField.product_name, Value.vStr "a"), (RecordField.price_retail, Value.vNum 1000)]

/-- Two-version bucket: price 12.00 at version 2.10. -/
def recV10 : Record := recOf "2.10"
  [(RecordField.product_name, Value.vStr "a"), (RecordField.price_retail, Value.vNum 1200)]

/-- Bucket entry after the single record recV9, used as a concrete step
state. -/
def entryW : Entry :=
  promoteEntry { initEntry recV9 with history := [mkSnapshot recV9] } recV9 (mkSnapshot recV9)

/-- Accumulator holding the recV9 bucket. -/
def accW : List (List Value × Entry) := [(record_key recV9, entryW)]

/- Helper lemmas on lookups, indices and list updates. -/

theorem lookupIdx_append (k : List Value) (u1 u2 : List (List Value × Nat)) :
    lookupIdx k (u1 ++ u2) =
      match lookupIdx k u1 with
      | some i => some i
      | none => lookupIdx k u2 := by
  induction u1 with
  | nil => simp [lookupIdx]
  | cons p rest ih =>
    obtain ⟨k0, i⟩ := p
    by_cases h : k0 = k <;> simp [lookupIdx, h, ih]

theorem lookupIdx_mem (k : List Value) (i : Nat) :
    ∀ u : List (List Value × Nat), lookupIdx k u = some i → (k, i) ∈ u := by
  intro u
  induction u with
  | nil => intro h; cases h
  | cons p rest ih =>
    obtain ⟨k0, j⟩ := p
    intro h
    by_cases hk : k0 = k
    · simp [lookupIdx, hk] at h
      subst hk
      subst h
      exact List.mem_cons_self _ _
    · simp [lookupIdx, hk] at h
      exact List.mem_cons_of_mem _ (ih h)

theorem lookupIdx_eq_none_iff (k : List Value) (u : List (List Value × Nat)) :
    lookupIdx k u = none ↔ k ∉ u.map Prod.fst := by
  induction u with
  | nil => simp [lookupIdx]
  | cons p rest ih =>
    obtain ⟨k0, j⟩ := p
    by_cases h : k0 = k
    · subst h
      simp [lookupIdx]
    · have hskip : lookupIdx k ((k0, j) :: rest) = lookupIdx k rest := by
        simp [lookupIdx, h]
      rw [hskip, ih]
      simp only [List.map_cons, List.mem_cons, not_or]
      constructor
      · intro hn
        exact ⟨fun he => h he.symm, hn⟩
      · intro hn
        exact hn.2

theorem getElem?_append_singleton {α : Type _} (l : List α) (a : α) (j : Nat) (x : α)
    (h : (l ++ [a])[j]? = some x) :
    (j < l.length ∧ l[j]? = some x) ∨ (j = l.length ∧ x = a) := by
  rw [List.getElem?_append] at h
  by_cases hj : j < l.length
  · left
    exact ⟨hj, by simpa [hj] using h⟩
  · right
    simp [hj] at h
    cases hd : j - l.length with
    | zero =>
      rw [hd] at h
      simp at h
      exact ⟨by omega, h.symm⟩
    | succ m =>
      rw [hd] at h
      simp at h

theorem set_getElem?_same {α : Type _} : ∀ (l : List α) (i : Nat) (a : α),
    l[i]? = some a → l.set i a = l := by
  intro l
  induction l with
  | nil => intro i a h; cases h
  | cons x xs ih =>
    intro i a h
    cases i with
    | zero =>
      simp at h
      simp [h]
    | succ m =>
      simp at h
      simp [ih m a h]

theorem map_set_comm {α β : Type _} (f : α → β) : ∀ (l : List α) (i : Nat) (a : α),
    (l.set i a).map f = (l.map f).set i (f a) := by
  intro l
  induction l with
  | nil => intro i a; rfl
  | cons x xs ih =>
    intro i a
    cases i with
    | zero => rfl
    | succ m => simp [ih m a]

theorem map_eq_map_pointwise {α β : Type _} {f g : α → β} (l : List α)
    (h : l.map f = l.map g) : ∀ a ∈ l, f a = g a := by
  induction l with
  | nil => intro a ha; cases ha
  | cons x xs ih =>
    simp only [List.map_cons, List.cons.injEq] at h
    intro a ha
    rcases List.mem_cons.mp ha with rfl | ha2
    · exact h.1
    · exact ih h.2 a ha2

/- Lemmas about the Deduplication Key and the merge step. -/

theorem deduplication_key_eq_some_iff (r : Record) (k : List Value) :
    deduplication_key r = some k ↔
      k = DEDUPLICATION_FIELDS.map (getVal r) ∧
        ∀ f ∈ DEDUPLICATION_FIELDS, getVal r f ≠ Value.vNone := by
  simp only [deduplication_key]
  split
  case isTrue h =>
    constructor
    · intro hc; cases hc
    · rintro ⟨rfl, hall⟩
      exfalso
      rw [List.any_eq_true] at h
      obtain ⟨v, hv, hb⟩ := h
      rw [List.mem_map] at hv
      obtain ⟨f, hf, rfl⟩ := hv
      exact hall f hf (by simpa using hb)
  case isFalse h =>
    constructor
    · intro hs
      injection hs with hs
      refine ⟨hs.symm, ?_⟩
      intro f hf hno
      apply h
      rw [List.any_eq_true]
      exact ⟨getVal r f, List.mem_map_of_mem _ hf, by simp [hno]⟩
    · rintro ⟨rfl, _⟩
      rfl

theorem getVal_mergeInto_eq (ex inc : Record) (f : RecordField)
    (h : getVal ex f = getVal inc f) :
    getVal (mergeInto ex inc) f = getVal ex f := by
  unfold mergeInto getVal at *
  cases hf : inc.fields f with
  | none => simp [hf]
  | some v =>
    rw [hf] at h
    simp at h
    simp [hf, pick_best, h]

theorem deduplication_key_mergeInto (ex inc : Record) (k : List Value)
    (h1 : deduplication_key ex = some k) (h2 : deduplication_key inc = some k) :
    deduplication_key (mergeInto ex inc) = some k := by
  rw [deduplication_key_eq_some_iff] at h1 h2 ⊢
  obtain ⟨hk1, hn1⟩ := h1
  obtain ⟨hk2, hn2⟩ := h2
  have hmaps : DEDUPLICATION_FIELDS.map (getVal ex) = DEDUPLICATION_FIELDS.map (getVal inc) :=
    hk1.symm.trans hk2
  have hpt : ∀ f ∈ DEDUPLICATION_FIELDS, getVal ex f = getVal inc f :=
    map_eq_map_pointwise _ hmaps
  constructor
  · rw [hk1]
    exact (List.map_congr_left (fun f hf => getVal_mergeInto_eq ex inc f (hpt f hf))).symm
  · intro f hf
    rw [getVal_mergeInto_eq ex inc f (hpt f hf)]
    exact hn1 f hf

/- Invariant of the deduplicate_records loop: every registered key points at
an in-range survivor carrying exactly that key, and every keyed record of
the output is registered at its own position. -/

structure DedupInv (st : DState) : Prop where
  reg : ∀ k i, (k, i) ∈ st.unique →
    ∃ rec, st.ordered[i]? = some rec ∧ deduplication_key rec = some k
  comp : ∀ j rec k, st.ordered[j]? = some rec → deduplication_key rec = some k →
    lookupIdx k st.unique = some j

theorem dedupInv_init : DedupInv { unique := [], ordered := [] } := by
  constructor
  · intro k i h; cases h
  · intro j rec k h; cases h

theorem dedupInv_step (st : DState) (r : Record) (h : DedupInv st) :
    DedupInv (dedupStep st r) := by
  cases hk : deduplication_key r with
  | none =>
    have hstep : dedupStep st r = { st with ordered := st.ordered ++ [r] } := by
      simp [dedupStep, hk]
    rw [hstep]
    constructor
    · intro k i hm
      obtain ⟨rec, hrec, hdk⟩ := h.reg k i hm
      refine ⟨rec, ?_, hdk⟩
      have hlt : i < st.ordered.length := by
        rcases List.getElem?_eq_some.mp hrec with ⟨hl, _⟩
        exact hl
      rw [List.getElem?_append]
      simpa [hlt] using hrec
    · intro j rec k hj hdk
      rcases getElem?_append_singleton _ _ _ _ hj with ⟨_, hj2⟩ | ⟨_, rfl⟩
      · exact h.comp j rec k hj2 hdk
      · rw [hk] at hdk; cases hdk
  | some key =>
    cases hlk : lookupIdx key st.unique with
    | none =>
      have hstep : dedupStep st r =
          { unique := st.unique ++ [(key, st.ordered.length)],
            ordered := st.ordered ++ [r] } := by
        simp [dedupStep, hk, hlk]
      rw [hstep]
      constructor
      · intro k i hm
        rcases List.mem_append.mp hm with hm1 | hm2
        · obtain ⟨rec, hrec, hdk⟩ := h.reg k i hm1
          refine ⟨rec, ?_, hdk⟩
          have hlt : i < st.ordered.length := by
            rcases List.getElem?_eq_some.mp hrec with ⟨hl, _⟩
            exact hl
          rw [List.getElem?_append]
          simpa [hlt] using hrec
        · simp at hm2
          obtain ⟨rfl, rfl⟩ := hm2
          exact ⟨r, List.getElem?_concat_length _ _, hk⟩
      · intro j rec k hj hdk
        rw [lookupIdx_append]
        rcases getElem?_append_singleton _ _ _ _ hj with ⟨_, hj2⟩ | ⟨rfl, rfl⟩
        · rw [h.comp j rec k hj2 hdk]
        · rw [hk] at hdk
          injection hdk with hdk
          subst hdk
          rw [hlk]
          simp [lookupIdx]
    | some i =>
      obtain ⟨existing, hex, hdkex⟩ := h.reg key i (lookupIdx_mem _ _ _ hlk)
      have hstep : dedupStep st r =
          { st with ordered := st.ordered.set i (mergeInto existing r) } := by
        simp [dedupStep, hk, hlk, hex]
      rw [hstep]
      have hlt : i < st.ordered.length := by
        rcases List.getElem?_eq_some.mp hex with ⟨hl, _⟩
        exact hl
      have hmerged : deduplication_key (mergeInto existing r) = some key :=
        deduplication_key_mergeInto existing r key hdkex hk
      constructor
      · intro k j hm
        obtain ⟨rec, hrec, hdk⟩ := h.reg k j hm
        by_cases hji : j = i
        · subst hji
          rw [hrec] at hex
          injection hex with hex2
          subst hex2
          rw [hdk] at hdkex
          injection hdkex with hkk
          subst hkk
          exact ⟨mergeInto rec r, List.getElem?_set_self hlt,
            deduplication_key_mergeInto rec r k hdk hk⟩
        · exact ⟨rec, by rw [List.getElem?_set_ne (fun he => hji he.symm)]; exact hrec, hdk⟩
      · intro j rec k hj hdk
        by_cases hji : j = i
        · subst hji
          rw [List.getElem?_set_self hlt] at hj
          injection hj with hj
          subst hj
          rw [hmerged] at hdk
          injection hdk with hdk
          subst hdk
          exact hlk
        · rw [List.getElem?_set_ne (fun he => hji he.symm)] at hj
          exact h.comp j rec k hj hdk

theorem foldl_dedupInv : ∀ (l : List Record) (st : DState),
    DedupInv st → DedupInv (l.foldl dedupStep st) := by
  intro l
  induction l with
  | nil => intro st h; simpa using h
  | cons r rest ih =>
    intro st h
    rw [List.foldl_cons]
    exact ih _ (dedupInv_step st r h)

theorem dedup_pairwise_keys (records : List Record) :
    (deduplicate_records records).Pairwise distinctKeys := by
  have hinv : DedupInv (records.foldl dedupStep { unique := [], ordered := [] }) :=
    foldl_dedupInv records _ dedupInv_init
  rw [List.pairwise_iff_get]
  intro i j hij k h1 h2
  have e1 : (deduplicate_records records)[i.val]? = some ((deduplicate_records records).get i) := by
    rw [List.getElem?_eq_getElem i.isLt]
    simp
  have e2 : (deduplicate_records records)[j.val]? = some ((deduplicate_records records).get j) := by
    rw [List.getElem?_eq_getElem j.isLt]
    simp
  have c1 := hinv.comp i.val _ k e1 h1
  have c2 := hinv.comp j.val _ k e2 h2
  rw [c1] at c2
  injection c2 with c2
  omega

theorem firstOccAux_congr : ∀ (l : List Record) (s1 s2 : List (List Value)),
    (∀ x, x ∈ s1 ↔ x ∈ s2) → firstOccAux s1 l = firstOccAux s2 l := by
  intro l
  induction l with
  | nil => intro s1 s2 _; rfl
  | cons r rest ih =>
    intro s1 s2 hmem
    cases hk : deduplication_key r with
    | none => simp [firstOccAux, hk, ih s1 s2 hmem]
    | some k =>
      by_cases hks : k ∈ s1
      · simp [firstOccAux, hk, hks, (hmem k).mp hks, ih s1 s2 hmem]
      · have hks2 : k ∉ s2 := fun hx => hks ((hmem k).mpr hx)
        rw [show firstOccAux s1 (r :: rest) = r :: firstOccAux (k :: s1) rest from by
          simp [firstOccAux, hk, hks]]
        rw [show firstOccAux s2 (r :: rest) = r :: firstOccAux (k :: s2) rest from by
          simp [firstOccAux, hk, hks2]]
        rw [ih (k :: s1) (k :: s2) (by intro x; simp [hmem x])]

theorem foldl_dedup_map_dkey : ∀ (l : List Record) (st : DState), DedupInv st →
    (l.foldl dedupStep st).ordered.map deduplication_key =
      st.ordered.map deduplication_key ++
        (firstOccAux (st.unique.map Prod.fst) l).map deduplication_key := by
  intro l
  induction l with
  | nil => intro st _; simp [firstOccAux]
  | cons r rest ih =>
    intro st hinv
    rw [List.foldl_cons]
    have hmain := ih (dedupStep st r) (dedupInv_step st r hinv)
    rw [hmain]
    cases hk : deduplication_key r with
    | none =>
      have hstep : dedupStep st r = { st with ordered := st.ordered ++ [r] } := by
        simp [dedupStep, hk]
      rw [hstep]
      simp [firstOccAux, hk]
    | some key =>
      cases hlk : lookupIdx key st.unique with
      | none =>
        have hseen : key ∉ st.unique.map Prod.fst := (lookupIdx_eq_none_iff key _).mp hlk
        have hstep : dedupStep st r =
            { unique := st.unique ++ [(key, st.ordered.length)],
              ordered := st.ordered ++ [r] } := by
          simp [dedupStep, hk, hlk]
        rw [hstep]
        have hcong : firstOccAux ((st.unique ++ [(key, st.ordered.length)]).map Prod.fst) rest
            = firstOccAux (key :: st.unique.map Prod.fst) rest := by
          apply firstOccAux_congr
          intro x
          simp [or_comm]
        simp only [hcong]
        simp [firstOccAux, hk, hseen]
      | some i =>
        obtain ⟨existing, hex, hdkex⟩ := hinv.reg key i (lookupIdx_mem _ _ _ hlk)
        have hseen : key ∈ st.unique.map Prod.fst :=
          List.mem_map_of_mem Prod.fst (lookupIdx_mem _ _ _ hlk)
        have hstep : dedupStep st r =
            { st with ordered := st.ordered.set i (mergeInto existing r) } := by
          simp [dedupStep, hk, hlk, hex]
        rw [hstep]
        have hmap : (st.ordered.set i (mergeInto existing r)).map deduplication_key
            = st.ordered.map deduplication_key := by
          rw [map_set_comm]
          apply set_getElem?_same
          rw [List.getElem?_map, hex]
          simp [deduplication_key_mergeInto existing r key hdkex hk, hdkex]
        simp only [hmap]
        simp [firstOccAux, hk, hseen]

theorem dedup_map_dkey (records : List Record) :
    (deduplicate_records records).map deduplication_key =
      (firstOcc records).map deduplication_key := by
  unfold deduplicate_records firstOcc
  rw [foldl_dedup_map_dkey records _ dedupInv_init]
  simp

theorem foldl_dedup_fresh : ∀ (l : List Record) (st : DState),
    (∀ r ∈ l, ∀ k, deduplication_key r = some k → lookupIdx k st.unique = none) →
    l.Pairwise distinctKeys →
    (l.foldl dedupStep st).ordered = st.ordered ++ l := by
  intro l
  induction l with
  | nil => intro st _ _; simp
  | cons r rest ih =>
    intro st hfresh hpw
    rw [List.foldl_cons]
    cases hk : deduplication_key r with
    | none =>
      have hstep : dedupStep st r = { st with ordered := st.ordered ++ [r] } := by
        simp [dedupStep, hk]
      have hfresh2 : ∀ r2 ∈ rest, ∀ k, deduplication_key r2 = some k →
          lookupIdx k (dedupStep st r).unique = none := by
        rw [hstep]
        intro r2 hr2 k hk2
        exact hfresh r2 (List.mem_cons_of_mem _ hr2) k hk2
      have h2 := ih (dedupStep st r) hfresh2 (List.Pairwise.of_cons hpw)
      rw [h2, hstep]
      simp
    | some key =>
      have hlk : lookupIdx key st.unique = none :=
        hfresh r (List.mem_cons_self _ _) key hk
      have hstep : dedupStep st r =
          { unique := st.unique ++ [(key, st.ordered.length)],
            ordered := st.ordered ++ [r] } := by
        simp [dedupStep, hk, hlk]
      have hfresh2 : ∀ r2 ∈ rest, ∀ k, deduplication_key r2 = some k →
          lookupIdx k (dedupStep st r).unique = none := by
        rw [hstep]
        intro r2 hr2 k hk2
        rw [lookupIdx_append, hfresh r2 (List.mem_cons_of_mem _ hr2) k hk2]
        have hne : key ≠ k := by
          intro he
          subst he
          exact (List.pairwise_cons.mp hpw).1 r2 hr2 key hk hk2
        simp [lookupIdx, hne]
      have h2 := ih (dedupStep st r) hfresh2 (List.Pairwise.of_cons hpw)
      rw [h2, hstep]
      simp

theorem deduplicate_records_fixed (records : List Record)
    (hpw : records.Pairwise distinctKeys) : deduplicate_records records = records := by
  unfold deduplicate_records
  rw [foldl_dedup_fresh records { unique := [], ordered := [] } (by intro r _ k _; rfl) hpw]
  simp

/-- Claim C7: deduplicate_records is idempotent: applied to its own output it
returns that output unchanged, with the same records in the same order and
no further merges. -/
theorem spec_c7 (records : List Record) :
    deduplicate_records (deduplicate_records records) = deduplicate_records records :=
  deduplicate_records_fixed _ (dedup_pairwise_keys records)

/-- Claim C8: no two records in the output of deduplicate_records share the
same non-null Deduplication Key: whenever one output record carries some key
k, every later output record carries a different key or none at all. -/
theorem spec_c8 (records : List Record) :
    (deduplicate_records records).Pairwise
      (fun a b => ∀ k, deduplication_key a = some k → deduplication_key b ≠ some k) :=
  dedup_pairwise_keys records

/-- Claim C5: on a registered Deduplication Key the incoming record is merged
into the surviving record field by field under prefer-existing-unless-empty,
the survivor keeps its output position, no output slot is added, and the
overall output order is first-occurrence order (stated through the key
sequence, which merging never alters). -/
theorem spec_c5 :
    (∀ (st : DState) (r : Record) (key : List Value) (i : Nat) (existing : Record),
      deduplication_key r = some key →
      lookupIdx key st.unique = some i →
      st.ordered[i]? = some existing →
      (dedupStep st r).unique = st.unique ∧
      (dedupStep st r).ordered = st.ordered.set i (mergeInto existing r) ∧
      (dedupStep st r).ordered.length = st.ordered.length ∧
      (∀ f v, r.fields f = some v →
        (mergeInto existing r).fields f =
          some (if isEmptyV (getVal existing f) then v else getVal existing f)) ∧
      (∀ f, r.fields f = none → (mergeInto existing r).fields f = existing.fields f)) ∧
    (∀ records : List Record,
      (deduplicate_records records).map deduplication_key =
        (firstOcc records).map deduplication_key) := by
  constructor
  · intro st r key i existing hk hlk hex
    have hstep : dedupStep st r = { st with ordered := st.ordered.set i (mergeInto existing r) } := by
      simp [dedupStep, hk, hlk, hex]
    refine ⟨by rw [hstep], by rw [hstep], by rw [hstep]; exact List.length_set _ _ _, ?_, ?_⟩
    · intro f v hf
      simp [mergeInto, hf, pick_best]
    · intro f hf
      simp [mergeInto, hf]
  · exact dedup_map_dkey

/-- Witness for C5 at a concrete state: a second row with the same key is
merged in place, registering nothing new, and the missing manufacturer is
filled from the incoming record. -/
theorem spec_c5_witness :
    (dedupStep stW rW).unique = stW.unique ∧
    (dedupStep stW rW).ordered = stW.ordered.set 0 (mergeInto existingW rW) ∧
    (mergeInto existingW rW).fields RecordField.manufacturer = some (Value.vStr "m") := by
  have h := spec_c5.1 stW rW keyW 0 existingW (by decide) (by decide) (by decide)
  refine ⟨h.1, h.2.1, ?_⟩
  have h2 := h.2.2.2.1 RecordField.manufacturer (Value.vStr "m") (by decide)
  rw [h2]
  decide

/- Lemmas about the accumulator of the aggregation loop. -/

theorem lookupEntry_append (k : List Value) (a1 a2 : List (List Value × Entry)) :
    lookupEntry k (a1 ++ a2) =
      match lookupEntry k a1 with
      | some e => some e
      | none => lookupEntry k a2 := by
  induction a1 with
  | nil => simp [lookupEntry]
  | cons p rest ih =>
    obtain ⟨k0, e0⟩ := p
    by_cases h : k0 = k <;> simp [lookupEntry, h, ih]

theorem lookupEntry_eq_none_iff (k : List Value) (acc : List (List Value × Entry)) :
    lookupEntry k acc = none ↔ k ∉ acc.map Prod.fst := by
  induction acc with
  | nil => simp [lookupEntry]
  | cons p rest ih =>
    obtain ⟨k0, e0⟩ := p
    by_cases h : k0 = k
    · subst h
      simp [lookupEntry]
    · have hskip : lookupEntry k ((k0, e0) :: rest) = lookupEntry k rest := by
        simp [lookupEntry, h]
      rw [hskip, ih]
      simp only [List.map_cons, List.mem_cons, not_or]
      constructor
      · intro hn
        exact ⟨fun he => h he.symm, hn⟩
      · intro hn
        exact hn.2

theorem replaceEntry_cons (k : List Value) (e : Entry) (k1 : List Value) (e1 : Entry)
    (rest : List (List Value × Entry)) :
    replaceEntry k e ((k1, e1) :: rest) =
      (if k1 = k then (k, e) else (k1, e1)) :: replaceEntry k e rest := rfl

theorem lookupEntry_replace_same (k : List Value) (e : Entry)
    (acc : List (List Value × Entry)) (h : (lookupEntry k acc).isSome) :
    lookupEntry k (replaceEntry k e acc) = some e := by
  induction acc with
  | nil => simp [lookupEntry] at h
  | cons p rest ih =>
    obtain ⟨k0, e0⟩ := p
    rw [replaceEntry_cons]
    by_cases hk : k0 = k
    · rw [if_pos hk]
      simp [lookupEntry]
    · rw [if_neg hk]
      have hh : (lookupEntry k rest).isSome := by
        simpa [lookupEntry, hk] using h
      simp [lookupEntry, hk]
      exact ih hh

theorem lookupEntry_replace_other (k k0 : List Value) (e : Entry)
    (acc : List (List Value × Entry)) (h : k0 ≠ k) :
    lookupEntry k (replaceEntry k0 e acc) = lookupEntry k acc := by
  induction acc with
  | nil => simp [replaceEntry, lookupEntry]
  | cons p rest ih =>
    obtain ⟨k1, e1⟩ := p
    rw [replaceEntry_cons]
    by_cases hk : k1 = k0
    · rw [if_pos hk]
      subst hk
      simp [lookupEntry, h, ih]
    · rw [if_neg hk]
      by_cases hk2 : k1 = k
      · subst hk2
        simp [lookupEntry, ih]
      · simp [lookupEntry, hk2, ih]

theorem replaceEntry_map_fst (k : List Value) (e : Entry) (acc : List (List Value × Entry)) :
    (replaceEntry k e acc).map Prod.fst = acc.map Prod.fst := by
  induction acc with
  | nil => rfl
  | cons p rest ih =>
    obtain ⟨k1, e1⟩ := p
    rw [replaceEntry_cons]
    by_cases hk : k1 = k
    · rw [if_pos hk]
      subst hk
      simpa using ih
    · rw [if_neg hk]
      simpa using ih

theorem aggStep_of_lookup_none (acc : List (List Value × Entry)) (r : Record)
    (hl : lookupEntry (record_key r) acc = none) :
    aggStep acc r = (entryStep (initEntry r) r).map (fun e => acc ++ [(record_key r, e)]) := by
  simp only [aggStep, hl]

theorem aggStep_of_lookup_some (acc : List (List Value × Entry)) (r : Record) (e : Entry)
    (hl : lookupEntry (record_key r) acc = some e) :
    aggStep acc r = (entryStep e r).map (fun e2 => replaceEntry (record_key r) e2 acc) := by
  simp only [aggStep, hl]

theorem lookupEntry_aggStep_eq (acc : List (List Value × Entry)) (r : Record)
    (acc2 : List (List Value × Entry)) (h : aggStep acc r = some acc2) :
    ∃ e2, entryStep ((lookupEntry (record_key r) acc).getD (initEntry r)) r = some e2 ∧
      lookupEntry (record_key r) acc2 = some e2 := by
  cases hl : lookupEntry (record_key r) acc with
  | none =>
    rw [aggStep_of_lookup_none acc r hl] at h
    cases he : entryStep (initEntry r) r with
    | none => rw [he] at h; cases h
    | some e2 =>
      rw [he] at h
      simp only [Option.map_some'] at h
      injection h with h
      subst h
      refine ⟨e2, by simpa using he, ?_⟩
      rw [lookupEntry_append, hl]
      simp [lookupEntry]
  | some e =>
    rw [aggStep_of_lookup_some acc r e hl] at h
    cases he : entryStep e r with
    | none => rw [he] at h; cases h
    | some e2 =>
      rw [he] at h
      simp only [Option.map_some'] at h
      injection h with h
      subst h
      exact ⟨e2, by simpa using he,
        lookupEntry_replace_same _ _ _ (by rw [hl]; rfl)⟩

theorem lookupEntry_aggStep_ne (acc : List (List Value × Entry)) (r : Record)
    (acc2 : List (List Value × Entry)) (k : List Value)
    (h : aggStep acc r = some acc2) (hk : record_key r ≠ k) :
    lookupEntry k acc2 = lookupEntry k acc := by
  cases hl : lookupEntry (record_key r) acc with
  | none =>
    rw [aggStep_of_lookup_none acc r hl] at h
    cases he : entryStep (initEntry r) r with
    | none => rw [he] at h; cases h
    | some e2 =>
      rw [he] at h
      simp only [Option.map_some'] at h
      injection h with h
      subst h
      rw [lookupEntry_append]
      cases hacc : lookupEntry k acc <;> simp [lookupEntry, hk]
  | some e =>
    rw [aggStep_of_lookup_some acc r e hl] at h
    cases he : entryStep e r with
    | none => rw [he] at h; cases h
    | some e2 =>
      rw [he] at h
      simp only [Option.map_some'] at h
      injection h with h
      subst h
      exact lookupEntry_replace_other _ _ _ _ hk

theorem aggFold_bucket (k : List Value) : ∀ (rs : List Record)
    (acc acc2 : List (List Value × Entry)), aggFold acc rs = some acc2 →
    bfold (lookupEntry k acc) (bucketOf rs k) = some (lookupEntry k acc2) := by
  intro rs
  induction rs with
  | nil =>
    intro acc acc2 h
    injection h with h
    subst h
    rfl
  | cons r rest ih =>
    intro acc acc2 h
    unfold aggFold at h
    cases hs : aggStep acc r with
    | none => rw [hs] at h; cases h
    | some acc1 =>
      rw [hs] at h
      by_cases hk : record_key r = k
      · subst hk
        obtain ⟨e2, he2, hl2⟩ := lookupEntry_aggStep_eq acc r acc1 hs
        have hrest := ih acc1 acc2 h
        rw [hl2] at hrest
        unfold bucketOf at hrest ⊢
        simp only [List.filter_cons, decide_True, if_pos]
        show bfold _ (r :: _) = _
        unfold bfold
        rw [he2]
        exact hrest
      · have hne := lookupEntry_aggStep_ne acc r acc1 k hs hk
        have hrest := ih acc1 acc2 h
        rw [hne] at hrest
        unfold bucketOf at hrest ⊢
        simpa [List.filter_cons, hk] using hrest

theorem aggFold_nodup_keys : ∀ (rs : List Record) (acc acc2 : List (List Value × Entry)),
    aggFold acc rs = some acc2 → (acc.map Prod.fst).Nodup → (acc2.map Prod.fst).Nodup := by
  intro rs
  induction rs with
  | nil =>
    intro acc acc2 h hnd
    injection h with h
    subst h
    exact hnd
  | cons r rest ih =>
    intro acc acc2 h hnd
    unfold aggFold at h
    cases hs : aggStep acc r with
    | none => rw [hs] at h; cases h
    | some acc1 =>
      rw [hs] at h
      refine ih acc1 acc2 h ?_
      cases hl : lookupEntry (record_key r) acc with
      | none =>
        rw [aggStep_of_lookup_none acc r hl] at hs
        cases he : entryStep (initEntry r) r with
        | none => rw [he] at hs; cases hs
        | some e2 =>
          rw [he] at hs
          simp only [Option.map_some'] at hs
          injection hs with hs
          subst hs
          have hnotin : record_key r ∉ acc.map Prod.fst :=
            (lookupEntry_eq_none_iff _ _).mp hl
          rw [List.map_append]
          refine List.Nodup.append hnd (by simp) ?_
          intro a ha hb
          simp at hb
          subst hb
          exact hnotin ha
      | some e =>
        rw [aggStep_of_lookup_some acc r e hl] at hs
        cases he : entryStep e r with
        | none => rw [he] at hs; cases hs
        | some e2 =>
          rw [he] at hs
          simp only [Option.map_some'] at hs
          injection hs with hs
          subst hs
          rw [replaceEntry_map_fst]
          exact hnd

theorem mem_lookupEntry_of_nodup : ∀ (acc : List (List Value × Entry)),
    (acc.map Prod.fst).Nodup → ∀ k e, (k, e) ∈ acc → lookupEntry k acc = some e := by
  intro acc
  induction acc with
  | nil => intro _ k e hm; cases hm
  | cons p rest ih =>
    obtain ⟨k0, e0⟩ := p
    intro hnd k e hm
    have hnd2 := List.nodup_cons.mp hnd
    rcases List.mem_cons.mp hm with heq | hm2
    · injection heq with h1 h2
      subst h1
      subst h2
      simp [lookupEntry]
    · have hk0 : k0 ≠ k := by
        intro he2
        subst he2
        exact hnd2.1 (List.mem_map.mpr ⟨(k0, e), hm2, rfl⟩)
      have hlk : lookupEntry k ((k0, e0) :: rest) = lookupEntry k rest := by
        simp [lookupEntry, hk0]
      rw [hlk]
      exact ih hnd2.2 k e hm2

theorem finishAll_mem : ∀ (acc : List (List Value × Entry)) (outs : List LogicalRecord),
    finishAll acc = some outs → ∀ lr ∈ outs, ∃ p ∈ acc, finishEntry p.2 = some lr := by
  intro acc
  induction acc with
  | nil =>
    intro outs h lr hm
    injection h with h
    subst h
    cases hm
  | cons p rest ih =>
    obtain ⟨k, e⟩ := p
    intro outs h lr hm
    unfold finishAll at h
    cases hfe : finishEntry e with
    | none => rw [hfe] at h; cases h
    | some lr0 =>
      rw [hfe] at h
      cases hfa : finishAll rest with
      | none => rw [hfa] at h; cases h
      | some lrs =>
        rw [hfa] at h
        injection h with h
        subst h
        rcases List.mem_cons.mp hm with rfl | hm2
        · exact ⟨(k, e), List.mem_cons_self _ _, hfe⟩
        · obtain ⟨p2, hp2, hfe2⟩ := ih lrs hfa lr hm2
          exact ⟨p2, List.mem_cons_of_mem _ hp2, hfe2⟩

theorem finishAll_none_of_mem : ∀ (acc : List (List Value × Entry))
    (p : List Value × Entry), p ∈ acc → finishEntry p.2 = none → finishAll acc = none := by
  intro acc
  induction acc with
  | nil => intro p hm; cases hm
  | cons q rest ih =>
    obtain ⟨k, e⟩ := q
    intro p hm hfe
    rcases List.mem_cons.mp hm with rfl | hm2
    · unfold finishAll
      rw [hfe]
    · unfold finishAll
      rw [ih p hm2 hfe]
      cases finishEntry e <;> rfl

theorem finishAll_isSome : ∀ (acc : List (List Value × Entry)),
    (∀ p ∈ acc, (finishEntry p.2).isSome) → ∃ outs, finishAll acc = some outs := by
  intro acc
  induction acc with
  | nil => intro _; exact ⟨[], rfl⟩
  | cons q rest ih =>
    obtain ⟨k, e⟩ := q
    intro hall
    obtain ⟨outs, houts⟩ := ih (fun p hp => hall p (List.mem_cons_of_mem _ hp))
    have he := hall (k, e) (List.mem_cons_self _ _)
    cases hfe : finishEntry e with
    | none => rw [hfe] at he; cases he
    | some lr =>
      refine ⟨lr :: outs, ?_⟩
      unfold finishAll
      rw [hfe, houts]

/- Case analysis of one aggregation step on a bucket entry. -/

theorem entryStep_elim (e : Entry) (r : Record) (e2 : Entry) (h : entryStep e r = some e2) :
    (e.latest_version = none ∧
       e2 = promoteEntry { e with history := e.history ++ [mkSnapshot r] } r (mkSnapshot r)) ∨
    (∃ lv kr kl, e.latest_version = some lv ∧ version_key r.version = some kr ∧
       version_key lv = some kl ∧
       ((kl ≤ kr ∧
          e2 = promoteEntry { e with history := e.history ++ [mkSnapshot r] } r (mkSnapshot r)) ∨
        (¬ kl ≤ kr ∧ e2 = { e with history := e.history ++ [mkSnapshot r] }))) := by
  simp only [entryStep] at h
  split at h
  · next hl =>
    injection h with h
    exact Or.inl ⟨hl, h.symm⟩
  · next lv hl =>
    split at h
    · next kr kl hkr hkl =>
      injection h with h
      by_cases hle : kl ≤ kr
      · rw [if_pos hle] at h
        exact Or.inr ⟨lv, kr, kl, hl, hkr, hkl, Or.inl ⟨hle, h.symm⟩⟩
      · rw [if_neg hle] at h
        exact Or.inr ⟨lv, kr, kl, hl, hkr, hkl, Or.inr ⟨hle, h.symm⟩⟩
    · next hx =>
      cases h

theorem entryStep_none_cases (e : Entry) (r : Record) (h : entryStep e r = none) :
    ∃ lv, e.latest_version = some lv ∧
      (version_key r.version = none ∨ version_key lv = none) := by
  simp only [entryStep] at h
  split at h
  · next hl => cases h
  · next lv hl =>
    split at h
    · next kr kl hkr hkl => cases h
    · next hx =>
      refine ⟨lv, hl, ?_⟩
      cases hkr : version_key r.version with
      | none => exact Or.inl rfl
      | some kr =>
        cases hkl : version_key lv with
        | none => exact Or.inr rfl
        | some kl => exact (hx kr kl hkr hkl).elim

theorem entryStep_isSome (e : Entry) (r : Record)
    (h1 : ∀ lv, e.latest_version = some lv → (version_key lv).isSome)
    (h2 : (version_key r.version).isSome) : (entryStep e r).isSome := by
  cases he : entryStep e r with
  | some e2 => rfl
  | none =>
    obtain ⟨lv, hlv, hbad⟩ := entryStep_none_cases e r he
    rcases hbad with hbad | hbad
    · rw [hbad] at h2; cases h2
    · have := h1 lv hlv
      rw [hbad] at this
      cases this

/- Lemmas about the per-bucket fold. -/

theorem bfold_some_of_some : ∀ (l : List Record) (e0 : Entry) (x : Option Entry),
    bfold (some e0) l = some x → ∃ e1, x = some e1 := by
  intro l
  induction l with
  | nil =>
    intro e0 x h
    injection h with h
    exact ⟨e0, h.symm⟩
  | cons r rest ih =>
    intro e0 x h
    unfold bfold at h
    simp only [Option.getD_some] at h
    cases he : entryStep e0 r with
    | none => rw [he] at h; cases h
    | some e2 => rw [he] at h; exact ih e2 x h

theorem bfold_cons_some (e0 : Entry) (r : Record) (rest : List Record) (x : Option Entry)
    (h : bfold (some e0) (r :: rest) = some x) :
    ∃ e2, entryStep e0 r = some e2 ∧ bfold (some e2) rest = some x := by
  unfold bfold at h
  simp only [Option.getD_some] at h
  cases he : entryStep e0 r with
  | none => rw [he] at h; cases h
  | some e2 => rw [he] at h; exact ⟨e2, rfl, h⟩

theorem bfold_none_cons (r : Record) (rest : List Record) (x : Option Entry)
    (h : bfold none (r :: rest) = some x) :
    bfold (some (promoteEntry { initEntry r with history := [mkSnapshot r] } r
      (mkSnapshot r))) rest = some x := h

theorem entryStep_history (e : Entry) (r : Record) (e2 : Entry) (h : entryStep e r = some e2) :
    e2.history = e.history ++ [mkSnapshot r] := by
  rcases entryStep_elim e r e2 h with ⟨_, rfl⟩ | ⟨lv, kr, kl, _, _, _, hcase⟩
  · rfl
  · rcases hcase with ⟨_, rfl⟩ | ⟨_, rfl⟩ <;> rfl

theorem bfold_history : ∀ (l : List Record) (e0 e1 : Entry),
    bfold (some e0) l = some (some e1) → e1.history = e0.history ++ l.map mkSnapshot := by
  intro l
  induction l with
  | nil =>
    intro e0 e1 h
    injection h with h
    injection h with h
    rw [← h]
    simp
  | cons r rest ih =>
    intro e0 e1 h
    obtain ⟨e2, he, hrest⟩ := bfold_cons_some e0 r rest (some e1) h
    rw [ih e2 e1 hrest, entryStep_history e0 r e2 he]
    simp

theorem bfold_none_history (l : List Record) (e1 : Entry)
    (hne : l ≠ []) (h : bfold none l = some (some e1)) :
    e1.history = l.map mkSnapshot := by
  cases l with
  | nil => exact absurd rfl hne
  | cons r rest =>
    have h2 := bfold_none_cons r rest (some e1) h
    rw [bfold_history rest _ e1 h2]
    rfl

theorem bfold_latest_snapshot : ∀ (l : List Record) (e0 e1 : Entry),
    bfold (some e0) l = some (some e1) →
    (e0.latest_snapshot ∈ e0.history ∧ e0.latest_version = some e0.latest_snapshot.version) →
    e1.latest_snapshot ∈ e1.history ∧
      e1.latest_version = some e1.latest_snapshot.version := by
  intro l
  induction l with
  | nil =>
    intro e0 e1 h h0
    injection h with h
    injection h with h
    rw [← h]
    exact h0
  | cons r rest ih =>
    intro e0 e1 h h0
    obtain ⟨e2, he, hrest⟩ := bfold_cons_some e0 r rest (some e1) h
    refine ih e2 e1 hrest ?_
    rcases entryStep_elim e0 r e2 he with ⟨_, rfl⟩ | ⟨lv, kr, kl, _, _, _, hcase⟩
    · exact ⟨List.mem_append.mpr (Or.inr (List.mem_singleton.mpr rfl)), rfl⟩
    · rcases hcase with ⟨_, rfl⟩ | ⟨_, rfl⟩
      · exact ⟨List.mem_append.mpr (Or.inr (List.mem_singleton.mpr rfl)), rfl⟩
      · exact ⟨List.mem_append.mpr (Or.inl h0.1), h0.2⟩

/- Lemmas about history decoration and the descending history sort. -/

theorem decorateHistory_cons_elim (s : Snapshot) (rest : List Snapshot)
    (ds : List (List Int × Snapshot)) (h : decorateHistory (s :: rest) = some ds) :
    ∃ k ds2, version_key s.version = some k ∧ decorateHistory rest = some ds2 ∧
      ds = (k, s) :: ds2 := by
  unfold decorateHistory at h
  cases hk : version_key s.version with
  | none =>
    rw [hk] at h
    cases hrest : decorateHistory rest with
    | none => rw [hrest] at h; cases h
    | some ds2 => rw [hrest] at h; cases h
  | some k =>
    rw [hk] at h
    cases hrest : decorateHistory rest with
    | none => rw [hrest] at h; cases h
    | some ds2 =>
      rw [hrest] at h
      injection h with h
      exact ⟨k, ds2, rfl, rfl, h.symm⟩

theorem decorateHistory_map_snd : ∀ (h0 : List Snapshot) (ds : List (List Int × Snapshot)),
    decorateHistory h0 = some ds → ds.map (fun d => d.2) = h0 := by
  intro h0
  induction h0 with
  | nil =>
    intro ds h
    injection h with h
    subst h
    rfl
  | cons s rest ih =>
    intro ds h
    obtain ⟨k, ds2, _, hrest, rfl⟩ := decorateHistory_cons_elim s rest ds h
    simp [ih ds2 hrest]

theorem decorateHistory_key : ∀ (h0 : List Snapshot) (ds : List (List Int × Snapshot)),
    decorateHistory h0 = some ds → ∀ p ∈ ds, version_key p.2.version = some p.1 := by
  intro h0
  induction h0 with
  | nil =>
    intro ds h p hp
    injection h with h
    subst h
    cases hp
  | cons s rest ih =>
    intro ds h p hp
    obtain ⟨k, ds2, hk, hrest, rfl⟩ := decorateHistory_cons_elim s rest ds h
    rcases List.mem_cons.mp hp with rfl | hp2
    · exact hk
    · exact ih ds2 hrest p hp2

theorem decorateHistory_isSome : ∀ (h0 : List Snapshot),
    (∀ s ∈ h0, (version_key s.version).isSome) → (decorateHistory h0).isSome := by
  intro h0
  induction h0 with
  | nil => intro _; rfl
  | cons s rest ih =>
    intro hall
    have hs := hall s (List.mem_cons_self _ _)
    have hrest := ih (fun t ht => hall t (List.mem_cons_of_mem _ ht))
    unfold decorateHistory
    cases hk : version_key s.version with
    | none => rw [hk] at hs; cases hs
    | some k =>
      cases hr : decorateHistory rest with
      | none => rw [hr] at hrest; cases hrest
      | some ds2 => rfl

theorem decorateHistory_eq_none : ∀ (h0 : List Snapshot) (s : Snapshot),
    s ∈ h0 → version_key s.version = none → decorateHistory h0 = none := by
  intro h0
  induction h0 with
  | nil => intro s hm; cases hm
  | cons t rest ih =>
    intro s hm hk
    rcases List.mem_cons.mp hm with rfl | hm2
    · unfold decorateHistory
      rw [hk]
    · unfold decorateHistory
      rw [ih s hm2 hk]
      cases version_key t.version <;> rfl

instance : IsTotal (List Int × Snapshot) histDescKey :=
  ⟨fun a b => le_total b.1 a.1⟩

instance : IsTrans (List Int × Snapshot) histDescKey :=
  ⟨fun _ _ _ hab hbc => le_trans hbc hab⟩

theorem sortHistory_elim (h0 hs : List Snapshot) (h : sortHistory h0 = some hs) :
    ∃ ds, decorateHistory h0 = some ds ∧
      hs = (List.insertionSort histDescKey ds).map (fun d => d.2) := by
  unfold sortHistory at h
  cases hds : decorateHistory h0 with
  | none => rw [hds] at h; cases h
  | some ds =>
    rw [hds] at h
    simp only [Option.map_some'] at h
    injection h with h
    exact ⟨ds, rfl, h.symm⟩

theorem sortHistory_mem (h0 hs : List Snapshot) (h : sortHistory h0 = some hs) (s : Snapshot) :
    s ∈ hs ↔ s ∈ h0 := by
  obtain ⟨ds, hds, rfl⟩ := sortHistory_elim h0 hs h
  rw [← decorateHistory_map_snd h0 ds hds]
  constructor
  · intro hm
    obtain ⟨p, hp, rfl⟩ := List.mem_map.mp hm
    exact List.mem_map.mpr ⟨p, (List.perm_insertionSort histDescKey ds).mem_iff.mp hp, rfl⟩
  · intro hm
    obtain ⟨p, hp, rfl⟩ := List.mem_map.mp hm
    exact List.mem_map.mpr ⟨p, (List.perm_insertionSort histDescKey ds).mem_iff.mpr hp, rfl⟩

theorem sortHistory_pairwise (h0 hs : List Snapshot) (h : sortHistory h0 = some hs) :
    hs.Pairwise (fun s t => ∃ ks kt, version_key s.version = some ks ∧
      version_key t.version = some kt ∧ kt ≤ ks) := by
  obtain ⟨ds, hds, rfl⟩ := sortHistory_elim h0 hs h
  have hsorted : (List.insertionSort histDescKey ds).Pairwise histDescKey :=
    List.sorted_insertionSort histDescKey ds
  have h2 : (List.insertionSort histDescKey ds).Pairwise
      (fun a b => ∃ ks kt, version_key a.2.version = some ks ∧
        version_key b.2.version = some kt ∧ kt ≤ ks) := by
    refine List.Pairwise.imp_of_mem ?_ hsorted
    intro a b ha hb hab
    have hka := decorateHistory_key h0 ds hds a
      ((List.perm_insertionSort histDescKey ds).mem_iff.mp ha)
    have hkb := decorateHistory_key h0 ds hds b
      ((List.perm_insertionSort histDescKey ds).mem_iff.mp hb)
    exact ⟨a.1, b.1, hka, hkb, hab⟩
  exact h2.map _ (fun a b hab => hab)

theorem sortHistory_isSome (h0 : List Snapshot)
    (hall : ∀ s ∈ h0, (version_key s.version).isSome) : (sortHistory h0).isSome := by
  unfold sortHistory
  have := decorateHistory_isSome h0 hall
  cases hds : decorateHistory h0 with
  | none => rw [hds] at this; cases this
  | some ds => rfl

theorem finishEntry_elim (e : Entry) (lr : LogicalRecord) (h : finishEntry e = some lr) :
    ∃ hs, sortHistory e.history = some hs ∧ lr = buildRecordData e hs := by
  unfold finishEntry at h
  cases hs2 : sortHistory e.history with
  | none => rw [hs2] at h; cases h
  | some hs =>
    rw [hs2] at h
    simp only [Option.map_some'] at h
    injection h with h
    exact ⟨hs, rfl, h.symm⟩

/- Distinctness of the output dict keys, settled by computation. -/

theorem staticNames_nodup : (STATIC_FIELDS.map fieldName).Nodup := by decide

theorem pmNames_nodup : ((PRICE_FIELDS ++ PRICE_META_FIELDS).map fieldName).Nodup := by decide

theorem pm_static_names_ne : ∀ f ∈ STATIC_FIELDS, ∀ f2 ∈ PRICE_FIELDS ++ PRICE_META_FIELDS,
    fieldName f2 ≠ fieldName f := by decide

theorem static_pm_names_ne : ∀ f ∈ PRICE_FIELDS ++ PRICE_META_FIELDS, ∀ f2 ∈ STATIC_FIELDS,
    fieldName f2 ≠ fieldName f := by decide

theorem static_names_reserved : ∀ f ∈ STATIC_FIELDS,
    fieldName f ≠ "latest_version" ∧ fieldName f ≠ "version_history" := by decide

theorem pm_names_reserved : ∀ f ∈ PRICE_FIELDS ++ PRICE_META_FIELDS,
    fieldName f ≠ "latest_version" ∧ fieldName f ≠ "version_history" := by decide

/- Lookup lemmas on materialised Logical Records. -/

theorem lookupOut_append (s : String) (l1 l2 : LogicalRecord) :
    lookupOut s (l1 ++ l2) =
      match lookupOut s l1 with
      | some v => some v
      | none => lookupOut s l2 := by
  induction l1 with
  | nil => simp [lookupOut]
  | cons p rest ih =>
    obtain ⟨k0, v0⟩ := p
    by_cases h : k0 = s <;> simp [lookupOut, h, ih]

theorem lookupOut_fieldSection_of_not (fs : List RecordField) (g : RecordField → Option OutValue)
    (s : String) (hs : ∀ f ∈ fs, fieldName f ≠ s) :
    lookupOut s (fieldSection fs g) = none := by
  induction fs with
  | nil => rfl
  | cons f rest ih =>
    have hrest := ih (fun f2 hf2 => hs f2 (List.mem_cons_of_mem _ hf2))
    unfold fieldSection at hrest ⊢
    rw [List.filterMap_cons]
    cases hg : g f with
    | none => exact hrest
    | some v =>
      simp only [Option.map_some']
      have hne := hs f (List.mem_cons_self _ _)
      simp [lookupOut, hne, hrest]

theorem lookupOut_fieldSection (fs : List RecordField) (g : RecordField → Option OutValue)
    (f : RecordField) (hf : f ∈ fs) (hnames : (fs.map fieldName).Nodup) :
    lookupOut (fieldName f) (fieldSection fs g) = g f := by
  induction fs with
  | nil => cases hf
  | cons f0 rest ih =>
    have hnames2 := List.nodup_cons.mp hnames
    rcases List.mem_cons.mp hf with rfl | hf2
    · unfold fieldSection
      rw [List.filterMap_cons]
      cases hg : g f with
      | some v =>
        simp only [Option.map_some']
        simp [lookupOut]
      | none =>
        have hnot : ∀ f2 ∈ rest, fieldName f2 ≠ fieldName f := by
          intro f2 hf2 he
          exact hnames2.1 (he ▸ List.mem_map.mpr ⟨f2, hf2, rfl⟩)
        rw [hg] at *
        exact (lookupOut_fieldSection_of_not rest g (fieldName f) hnot).trans hg.symm
    · have hne : fieldName f0 ≠ fieldName f := by
        intro he
        exact hnames2.1 (he ▸ List.mem_map.mpr ⟨f, hf2, rfl⟩)
      unfold fieldSection
      rw [List.filterMap_cons]
      cases hg : g f0 with
      | none => exact ih hf2 hnames2.2
      | some v =>
        simp only [Option.map_some']
        have := ih hf2 hnames2.2
        unfold fieldSection at this
        simp [lookupOut, hne, this]

theorem lookupOut_build_latest (e : Entry) (hs : List Snapshot) :
    lookupOut "latest_version" (buildRecordData e hs) = some (OutValue.ver e.latest_version) := by
  unfold buildRecordData
  rw [lookupOut_append,
    lookupOut_fieldSection_of_not _ _ _ (fun f hf => (static_names_reserved f hf).1)]
  rw [lookupOut_append,
    lookupOut_fieldSection_of_not _ _ _ (fun f hf => (pm_names_reserved f hf).1)]
  simp [lookupOut]

theorem lookupOut_build_history (e : Entry) (hs : List Snapshot) :
    lookupOut "version_history" (buildRecordData e hs) = some (OutValue.hist hs) := by
  unfold buildRecordData
  rw [lookupOut_append,
    lookupOut_fieldSection_of_not _ _ _ (fun f hf => (static_names_reserved f hf).2)]
  rw [lookupOut_append,
    lookupOut_fieldSection_of_not _ _ _ (fun f hf => (pm_names_reserved f hf).2)]
  simp [lookupOut]

theorem lookupOut_build_pm (e : Entry) (hs : List Snapshot) (f : RecordField)
    (hf : f ∈ PRICE_FIELDS ++ PRICE_META_FIELDS) :
    lookupOut (fieldName f) (buildRecordData e hs) = pmOut e f := by
  unfold buildRecordData
  rw [lookupOut_append,
    lookupOut_fieldSection_of_not _ _ _ (fun f2 hf2 => static_pm_names_ne f hf f2 hf2)]
  rw [lookupOut_append, lookupOut_fieldSection _ _ f hf pmNames_nodup]
  cases hg : pmOut e f with
  | some v => rfl
  | none =>
    have hres := pm_names_reserved f hf
    simp [lookupOut, hres.1.symm, hres.2.symm]

theorem lookupOut_build_static (e : Entry) (hs : List Snapshot) (f : RecordField)
    (hf : f ∈ STATIC_FIELDS) :
    lookupOut (fieldName f) (buildRecordData e hs) = staticOut e f := by
  unfold buildRecordData
  rw [lookupOut_append, lookupOut_fieldSection _ _ f hf staticNames_nodup]
  cases hg : staticOut e f with
  | some v => rfl
  | none =>
    rw [lookupOut_append,
      lookupOut_fieldSection_of_not _ _ _ (fun f2 hf2 => pm_static_names_ne f hf f2 hf2)]
    have hres := static_names_reserved f hf
    simp [lookupOut, hres.1.symm, hres.2.symm]

/- Structural relation between the output of aggregate_records and the
per-bucket folds. -/

theorem aggregate_records_elim (records : List Record) (out : List LogicalRecord)
    (h : aggregate_records records = some out) :
    ∃ acc outs, aggFold [] records = some acc ∧ finishAll acc = some outs ∧
      out = List.insertionSort resultOrder outs := by
  cases hf : aggFold [] records with
  | none => simp only [aggregate_records, hf] at h; cases h
  | some acc =>
    cases hfi : finishAll acc with
    | none => simp only [aggregate_records, hf, hfi] at h; cases h
    | some outs =>
      simp only [aggregate_records, hf, hfi, Option.some.injEq] at h
      exact ⟨acc, outs, rfl, hfi, h.symm⟩

theorem mem_aggregate (records : List Record) (out : List LogicalRecord) (lr : LogicalRecord)
    (h : aggregate_records records = some out) (hm : lr ∈ out) :
    ∃ k e, bfold none (bucketOf records k) = some (some e) ∧ bucketOf records k ≠ [] ∧
      finishEntry e = some lr := by
  obtain ⟨acc, outs, hf, hfi, rfl⟩ := aggregate_records_elim records out h
  have hmem2 : lr ∈ outs := ((List.perm_insertionSort resultOrder outs).mem_iff).mp hm
  obtain ⟨p, hp, hfe⟩ := finishAll_mem acc outs hfi lr hmem2
  obtain ⟨k, e⟩ := p
  have hnd : (acc.map Prod.fst).Nodup := aggFold_nodup_keys records [] acc hf (by simp)
  have hle : lookupEntry k acc = some e := mem_lookupEntry_of_nodup acc hnd k e hp
  have hb := aggFold_bucket k records [] acc hf
  rw [hle] at hb
  refine ⟨k, e, hb, ?_, hfe⟩
  intro hnil
  rw [hnil] at hb
  injection hb with hb
  cases hb

/-- Claim C1 counterexample: two identical records of version "1" under one
Aggregation Key produce a Logical Record whose version_history lists version
"1" twice, so history version labels are neither unique nor strictly
descending. -/
theorem spec_c1_counterexample :
    (aggregate_records [recPA, recPA]).map (fun out => out.map (fun lr =>
      match lookupOut "version_history" lr with
      | some (OutValue.hist h) => h.map (fun s => s.version)
      | _ => [])) = some [["1", "1"]] ∧
    ¬ (["1", "1"] : List String).Nodup := by
  constructor
  · decide
  · decide

/-- Claim C1 (amended): in every version_history produced by
aggregate_records the entries are sorted descending by numeric dot-order in
the non-strict sense: every earlier entry has a version key greater than or
equal to that of every later entry. Uniqueness and strictness fail when the
same version contributes twice to a bucket. -/
theorem spec_c1_amended (records : List Record) (out : List LogicalRecord)
    (lr : LogicalRecord) (h : List Snapshot)
    (hagg : aggregate_records records = some out) (hm : lr ∈ out)
    (hh : lookupOut "version_history" lr = some (OutValue.hist h)) :
    h.Pairwise (fun s t => ∃ ks kt, version_key s.version = some ks ∧
      version_key t.version = some kt ∧ kt ≤ ks) := by
  obtain ⟨k, e, hb, hne, hfe⟩ := mem_aggregate records out lr hagg hm
  obtain ⟨hs, hsort, rfl⟩ := finishEntry_elim e lr hfe
  rw [lookupOut_build_history] at hh
  injection hh with hh
  injection hh with hh
  subst hh
  exact sortHistory_pairwise e.history hs hsort

/-- Witness for the amended C1 at the two-version input: the sorted history
of the single Logical Record is descending from "2.10" to "2.9". -/
theorem spec_c1_amended_witness :
    [mkSnapshot recV10, mkSnapshot recV9].Pairwise (fun s t => ∃ ks kt,
      version_key s.version = some ks ∧ version_key t.version = some kt ∧ kt ≤ ks) :=
  spec_c1_amended [recV9, recV10] ((aggregate_records [recV9, recV10]).getD [])
    (((aggregate_records [recV9, recV10]).getD []).headI)
    [mkSnapshot recV10, mkSnapshot recV9] (by rfl) (by decide) (by decide)

/-- Claim C10: every Logical Record has a history entry whose version equals
latest_version and whose populated price/meta fields are exactly the current
price/meta fields of the record (the latest snapshot itself). -/
theorem spec_c10 (records : List Record) (out : List LogicalRecord) (lr : LogicalRecord)
    (hagg : aggregate_records records = some out) (hm : lr ∈ out) :
    ∃ v h s, lookupOut "latest_version" lr = some (OutValue.ver (some v)) ∧
      lookupOut "version_history" lr = some (OutValue.hist h) ∧ s ∈ h ∧ s.version = v ∧
      ∀ f ∈ PRICE_FIELDS ++ PRICE_META_FIELDS,
        lookupOut (fieldName f) lr = (s.fields f).map OutValue.val := by
  obtain ⟨k, e, hb, hne, hfe⟩ := mem_aggregate records out lr hagg hm
  obtain ⟨hs, hsort, rfl⟩ := finishEntry_elim e lr hfe
  have hinv : e.latest_snapshot ∈ e.history ∧
      e.latest_version = some e.latest_snapshot.version := by
    cases hbk : bucketOf records k with
    | nil => exact absurd hbk hne
    | cons r rest =>
      rw [hbk] at hb
      have h2 := bfold_none_cons r rest (some e) hb
      refine bfold_latest_snapshot rest _ e h2 ?_
      exact ⟨List.mem_singleton.mpr rfl, rfl⟩
  refine ⟨e.latest_snapshot.version, hs, e.latest_snapshot, ?_, ?_, ?_, rfl, ?_⟩
  · rw [lookupOut_build_latest, hinv.2]
  · exact lookupOut_build_history e hs
  · exact (sortHistory_mem e.history hs hsort _).mpr hinv.1
  · intro f hf
    rw [lookupOut_build_pm e hs f hf]
    have hsnap : ∀ v, e.latest_snapshot.fields f = some v → v ≠ Value.vNone := by
      have hhist := bfold_none_history (bucketOf records k) e hne hb
      have hmem := hinv.1
      rw [hhist] at hmem
      obtain ⟨r2, _, hr2⟩ := List.mem_map.mp hmem
      intro v hv hcon
      subst hcon
      rw [← hr2] at hv
      simp only [mkSnapshot] at hv
      split at hv
      · next hcond =>
        injection hv with hv
        exact hcond.2 hv
      · cases hv
    unfold pmOut
    cases hval : e.latest_snapshot.fields f with
    | none => rfl
    | some v =>
      have := hsnap v hval
      simp [this]

/-- Witness for C10: at the two-version input the latest snapshot "2.10"
appears in the history and carries exactly the current price fields. -/
theorem spec_c10_witness :
    ∃ v h s, lookupOut "latest_version" (((aggregate_records [recV9, recV10]).getD []).headI)
        = some (OutValue.ver (some v)) ∧
      lookupOut "version_history" (((aggregate_records [recV9, recV10]).getD []).headI)
        = some (OutValue.hist h) ∧ s ∈ h ∧ s.version = v ∧
      ∀ f ∈ PRICE_FIELDS ++ PRICE_META_FIELDS,
        lookupOut (fieldName f) (((aggregate_records [recV9, recV10]).getD []).headI)
          = (s.fields f).map OutValue.val :=
  spec_c10 [recV9, recV10] ((aggregate_records [recV9, recV10]).getD [])
    (((aggregate_records [recV9, recV10]).getD []).headI) (by rfl) (by decide)

/- Helpers for the running-maximum argument of the aggregation fold. -/

theorem keyD_eq (s : String) (k : List Int) (h : version_key s = some k) : keyD s = k := by
  simp [keyD, h]

theorem pick_best_of_nonempty (a b : Value) (h : isEmptyV a = false) : pick_best a b = a := by
  simp [pick_best, h]

theorem pick_best_nonempty_right (a b : Value) (h : isEmptyV b = false) :
    isEmptyV (pick_best a b) = false := by
  by_cases he : isEmptyV a <;> simp [pick_best, he, h]

theorem exists_max_record : ∀ (rest : List Record) (r0 : Record),
    ∃ ra ∈ r0 :: rest, ∀ r ∈ r0 :: rest, keyD r.version ≤ keyD ra.version := by
  intro rest
  induction rest with
  | nil =>
    intro r0
    refine ⟨r0, List.mem_cons_self _ _, ?_⟩
    intro r hr
    rcases List.mem_cons.mp hr with rfl | hr2
    · exact le_refl _
    · cases hr2
  | cons r1 rest2 ih =>
    intro r0
    obtain ⟨ra, hra, hmax⟩ := ih r0
    rcases le_total (keyD r1.version) (keyD ra.version) with hle | hle
    · refine ⟨ra, ?_, ?_⟩
      · rcases List.mem_cons.mp hra with rfl | h2
        · exact List.mem_cons_self _ _
        · exact List.mem_cons_of_mem _ (List.mem_cons_of_mem _ h2)
      · intro r hr
        rcases List.mem_cons.mp hr with rfl | hr2
        · exact hmax r (List.mem_cons_self _ _)
        rcases List.mem_cons.mp hr2 with rfl | hr3
        · exact hle
        · exact hmax r (List.mem_cons_of_mem _ hr3)
    · refine ⟨r1, List.mem_cons_of_mem _ (List.mem_cons_self _ _), ?_⟩
      intro r hr
      rcases List.mem_cons.mp hr with rfl | hr2
      · exact le_trans (hmax r (List.mem_cons_self _ _)) hle
      rcases List.mem_cons.mp hr2 with rfl | hr3
      · exact le_refl _
      · exact le_trans (hmax r (List.mem_cons_of_mem _ hr3)) hle

/-- Running invariant of the per-bucket fold below an upper bound m of all
version keys: the latest version only moves up, populated descriptor data is
never lost, any bound-attaining record imprints its non-empty static fields,
the latest snapshot comes from a bound-attaining record once one is seen,
and nothing but the history changes while no record reaches the current
latest version. -/
theorem bucket_step_inv (m : List Int) : ∀ (l : List Record) (e : Entry) (v : String)
    (e2 : Entry),
    e.latest_version = some v →
    (version_key v).isSome →
    keyD v ≤ m →
    (∀ r ∈ l, (version_key r.version).isSome) →
    (∀ r ∈ l, keyD r.version ≤ m) →
    bfold (some e) l = some (some e2) →
    ((∃ v2, e2.latest_version = some v2 ∧ (version_key v2).isSome ∧ keyD v2 ≤ m ∧
        keyD v ≤ keyD v2) ∧
     (∀ f, isEmptyV (e.data f) = false → isEmptyV (e2.data f) = false) ∧
     (∀ f ∈ STATIC_FIELDS, ∀ r ∈ l, m ≤ keyD r.version → isEmptyV (getVal r f) = false →
        isEmptyV (e2.data f) = false) ∧
     (∀ r ∈ l, m ≤ keyD r.version → ∃ r2, r2 ∈ l ∧ m ≤ keyD r2.version ∧
        e2.latest_snapshot = mkSnapshot r2 ∧ e2.latest_version = some r2.version) ∧
     ((∀ r ∈ l, ¬ keyD v ≤ keyD r.version) →
        e2.latest_snapshot = e.latest_snapshot ∧ e2.latest_version = some v ∧
          e2.data = e.data)) := by
  intro l
  induction l with
  | nil =>
    intro e v e2 hlat hpv hvm _ _ hb
    injection hb with hb
    injection hb with hb
    subst hb
    refine ⟨⟨v, hlat, hpv, hvm, le_refl _⟩, fun f hf => hf, ?_, ?_, ?_⟩
    · intro f _ r hr; cases hr
    · intro r hr; cases hr
    · intro _; exact ⟨rfl, hlat, rfl⟩
  | cons r rest ih =>
    intro e v e2 hlat hpv hvm hparse hbound hb
    obtain ⟨e1, he1, hrest⟩ := bfold_cons_some e r rest (some e2) hb
    rcases entryStep_elim e r e1 he1 with ⟨hl0, _⟩ | ⟨lv, kr, kl, hl, hkr, hkl, hcase⟩
    · rw [hlat] at hl0; cases hl0
    · rw [hlat] at hl
      injection hl with hl
      subst hl
      have hkdr : keyD r.version = kr := keyD_eq _ _ hkr
      have hkdv : keyD v = kl := keyD_eq _ _ hkl
      have hrm : keyD r.version ≤ m := hbound r (List.mem_cons_self _ _)
      have hparse2 : ∀ r2 ∈ rest, (version_key r2.version).isSome :=
        fun r2 h2 => hparse r2 (List.mem_cons_of_mem _ h2)
      have hbound2 : ∀ r2 ∈ rest, keyD r2.version ≤ m :=
        fun r2 h2 => hbound r2 (List.mem_cons_of_mem _ h2)
      rcases hcase with ⟨hle, rfl⟩ | ⟨hnle, rfl⟩
      · -- promotion: the incoming record becomes the latest
        have hC := ih _ r.version e2 rfl (by rw [hkr]; rfl) hrm hparse2 hbound2 hrest
        obtain ⟨hC1, hC2, hC3, hC4, hC5⟩ := hC
        have hdata1 : ∀ f, isEmptyV (e.data f) = false →
            isEmptyV ((promoteEntry { e with history := e.history ++ [mkSnapshot r] } r
              (mkSnapshot r)).data f) = false := by
          intro f hf
          show isEmptyV (if f ∈ STATIC_FIELDS then pick_best (getVal r f) (e.data f)
            else e.data f) = false
          by_cases hfs : f ∈ STATIC_FIELDS
          · rw [if_pos hfs]
            exact pick_best_nonempty_right _ _ hf
          · rw [if_neg hfs]
            exact hf
        refine ⟨?_, ?_, ?_, ?_, ?_⟩
        · obtain ⟨v2, ha, hb2, hc, hd⟩ := hC1
          have hd2 : kr ≤ keyD v2 := by rw [← hkdr]; exact hd
          refine ⟨v2, ha, hb2, hc, ?_⟩
          rw [hkdv]
          exact le_trans hle hd2
        · intro f hf
          exact hC2 f (hdata1 f hf)
        · intro f hfs r2 hr2 hr2m hr2f
          rcases List.mem_cons.mp hr2 with rfl | hr2rest
          · refine hC2 f ?_
            show isEmptyV (if f ∈ STATIC_FIELDS then pick_best (getVal r2 f) (e.data f)
              else e.data f) = false
            rw [if_pos hfs, pick_best_of_nonempty _ _ hr2f]
            exact hr2f
          · exact hC3 f hfs r2 hr2rest hr2m hr2f
        · intro r2 hr2 hr2m
          by_cases hex : ∃ r3 ∈ rest, m ≤ keyD r3.version
          · obtain ⟨r3, hr3, hr3m⟩ := hex
            obtain ⟨r4, hr4, hr4m, hsnap, hlat4⟩ := hC4 r3 hr3 hr3m
            exact ⟨r4, List.mem_cons_of_mem _ hr4, hr4m, hsnap, hlat4⟩
          · have hrm2 : m ≤ keyD r.version := by
              rcases List.mem_cons.mp hr2 with rfl | hr2rest
              · exact hr2m
              · exact absurd ⟨r2, hr2rest, hr2m⟩ hex
            have hnone : ∀ r3 ∈ rest, ¬ keyD r.version ≤ keyD r3.version := by
              intro r3 hr3 hle3
              exact hex ⟨r3, hr3, le_trans hrm2 hle3⟩
            obtain ⟨hsnap, hlat5, _⟩ := hC5 hnone
            exact ⟨r, List.mem_cons_self _ _, hrm2, hsnap, hlat5⟩
        · intro hnone
          exact absurd hle (by
            have := hnone r (List.mem_cons_self _ _)
            rw [hkdv, hkdr] at this
            exact this)
      · -- skip: the incoming version is below the current latest
        have hC := ih ({ e with history := e.history ++ [mkSnapshot r] }) v e2 hlat hpv hvm
          hparse2 hbound2 hrest
        obtain ⟨hC1, hC2, hC3, hC4, hC5⟩ := hC
        refine ⟨hC1, hC2, ?_, ?_, ?_⟩
        · intro f hfs r2 hr2 hr2m hr2f
          rcases List.mem_cons.mp hr2 with rfl | hr2rest
          · exfalso
            apply hnle
            rw [← hkdv, ← hkdr]
            exact le_trans hvm hr2m
          · exact hC3 f hfs r2 hr2rest hr2m hr2f
        · intro r2 hr2 hr2m
          rcases List.mem_cons.mp hr2 with rfl | hr2rest
          · exfalso
            apply hnle
            rw [← hkdv, ← hkdr]
            exact le_trans hvm hr2m
          · obtain ⟨r3, hr3, hr3m, hsnap, hlat3⟩ := hC4 r2 hr2rest hr2m
            exact ⟨r3, List.mem_cons_of_mem _ hr3, hr3m, hsnap, hlat3⟩
        · intro hnone
          exact hC5 (fun r3 hr3 => hnone r3 (List.mem_cons_of_mem _ hr3))

/-- Final state of a nonempty bucket with well-formed versions: the latest
version and snapshot come from a record attaining the bucket maximum, and
every maximal record with a non-empty static field leaves that field
non-empty in the bucket data. -/
theorem bucket_final (l : List Record) (hne : l ≠ [])
    (hp : ∀ r ∈ l, (version_key r.version).isSome) (e2 : Entry)
    (hb : bfold none l = some (some e2)) :
    ∃ rmax, rmax ∈ l ∧ (∀ r ∈ l, keyD r.version ≤ keyD rmax.version) ∧
      e2.latest_version = some rmax.version ∧ e2.latest_snapshot = mkSnapshot rmax ∧
      (∀ f ∈ STATIC_FIELDS, ∀ r ∈ l, (∀ r2 ∈ l, keyD r2.version ≤ keyD r.version) →
        isEmptyV (getVal r f) = false → isEmptyV (e2.data f) = false) := by
  cases l with
  | nil => exact absurd rfl hne
  | cons r0 rest =>
    obtain ⟨ra, hra, hmax⟩ := exists_max_record rest r0
    have h2 := bfold_none_cons r0 rest (some e2) hb
    have hC := bucket_step_inv (keyD ra.version) rest
      (promoteEntry { initEntry r0 with history := [mkSnapshot r0] } r0 (mkSnapshot r0))
      r0.version e2 rfl (hp r0 (List.mem_cons_self _ _))
      (hmax r0 (List.mem_cons_self _ _))
      (fun r2 hr2 => hp r2 (List.mem_cons_of_mem _ hr2))
      (fun r2 hr2 => hmax r2 (List.mem_cons_of_mem _ hr2)) h2
    obtain ⟨hC1, hC2, hC3, hC4, hC5⟩ := hC
    have hdata0 : ∀ f ∈ STATIC_FIELDS, isEmptyV (getVal r0 f) = false →
        isEmptyV ((promoteEntry { initEntry r0 with history := [mkSnapshot r0] } r0
          (mkSnapshot r0)).data f) = false := by
      intro f hfs hf
      show isEmptyV (if f ∈ STATIC_FIELDS then pick_best (getVal r0 f)
        ((initEntry r0).data f) else (initEntry r0).data f) = false
      rw [if_pos hfs, pick_best_of_nonempty _ _ hf]
      exact hf
    by_cases hex : ∃ r3 ∈ rest, keyD ra.version ≤ keyD r3.version
    · obtain ⟨r3, hr3, hr3m⟩ := hex
      obtain ⟨r4, hr4, hr4m, hsnap, hlat4⟩ := hC4 r3 hr3 hr3m
      refine ⟨r4, List.mem_cons_of_mem _ hr4, ?_, hlat4, hsnap, ?_⟩
      · intro r hr
        exact le_trans (hmax r hr) hr4m
      · intro f hfs r hr hrmax hrf
        rcases List.mem_cons.mp hr with rfl | hrrest
        · exact hC2 f (hdata0 f hfs hrf)
        · exact hC3 f hfs r hrrest (hrmax ra hra) hrf
    · have hra0 : ra = r0 := by
        rcases List.mem_cons.mp hra with h | h
        · exact h
        · exact absurd ⟨ra, h, le_refl _⟩ hex
      subst hra0
      have hnone : ∀ r3 ∈ rest, ¬ keyD ra.version ≤ keyD r3.version := by
        intro r3 hr3 hle3
        exact hex ⟨r3, hr3, hle3⟩
      obtain ⟨hsnap, hlat5, _⟩ := hC5 hnone
      refine ⟨ra, List.mem_cons_self _ _, hmax, hlat5, hsnap, ?_⟩
      intro f hfs r hr hrmax hrf
      rcases List.mem_cons.mp hr with rfl | hrrest
      · exact hC2 f (hdata0 f hfs hrf)
      · exact absurd (hrmax ra (List.mem_cons_self _ _))
          (by
            intro hle2
            exact hex ⟨r, hrrest, le_trans hle2 (le_refl _)⟩)

/-- Claim C4: under well-formed version labels, the latest_version of every
Logical Record is the maximum version among the records grouped under its
Aggregation Key, compared componentwise and numerically. -/
theorem spec_c4 (records : List Record) (out : List LogicalRecord) (lr : LogicalRecord)
    (hwf : ∀ r ∈ records, (version_key r.version).isSome)
    (hagg : aggregate_records records = some out) (hm : lr ∈ out) :
    ∃ k v, bucketOf records k ≠ [] ∧
      lookupOut "latest_version" lr = some (OutValue.ver (some v)) ∧
      v ∈ (bucketOf records k).map (fun r => r.version) ∧
      ∀ u ∈ (bucketOf records k).map (fun r => r.version), keyD u ≤ keyD v := by
  obtain ⟨k, e, hb, hne, hfe⟩ := mem_aggregate records out lr hagg hm
  obtain ⟨hs, hsort, rfl⟩ := finishEntry_elim e lr hfe
  have hpb : ∀ r ∈ bucketOf records k, (version_key r.version).isSome := by
    intro r hr
    exact hwf r (List.mem_filter.mp hr).1
  obtain ⟨rmax, hrm, hmax, hlat, hsnap, hdata⟩ :=
    bucket_final (bucketOf records k) hne hpb e hb
  refine ⟨k, rmax.version, hne, ?_, ?_, ?_⟩
  · rw [lookupOut_build_latest, hlat]
  · exact List.mem_map.mpr ⟨rmax, hrm, rfl⟩
  · intro u hu
    obtain ⟨r, hr, rfl⟩ := List.mem_map.mp hu
    exact hmax r hr

/-- Witness for C4: with versions "2.9" and "2.10" in one bucket, the
latest version is "2.10", the numeric maximum. -/
theorem spec_c4_witness :
    ∃ k v, bucketOf [recV9, recV10] k ≠ [] ∧
      lookupOut "latest_version" (((aggregate_records [recV9, recV10]).getD []).headI)
        = some (OutValue.ver (some v)) ∧
      v ∈ (bucketOf [recV9, recV10] k).map (fun r => r.version) ∧
      ∀ u ∈ (bucketOf [recV9, recV10] k).map (fun r => r.version), keyD u ≤ keyD v :=
  spec_c4 [recV9, recV10] ((aggregate_records [recV9, recV10]).getD [])
    (((aggregate_records [recV9, recV10]).getD []).headI)
    (by decide) (by rfl) (by decide)

/-- Claim C2 counterexample: two records of the same version under one
Aggregation Key, the earlier carrying price_retail and the later one
without it: the Logical Record has no current price_retail although a
contributing record of the same (equal-or-highest) version holds a non-null
value for it. -/
theorem spec_c2_counterexample :
    record_key recPA = record_key recPB ∧ recPA.version = recPB.version ∧
    getVal recPA RecordField.price_retail = Value.vNum 1000 ∧
    (aggregate_records [recPA, recPB]).map (fun out => out.map (fun lr =>
      lookupOut "price_retail" lr)) = some [none] := by
  refine ⟨by decide, by decide, by decide, by decide⟩

/-- Claim C2 (amended): a current descriptor field is populated whenever any
contributing record attaining the maximal version of the bucket carries a
non-empty value for it; the current price/meta fields are exactly the
non-null price/meta fields of one single maximal-version contributing
record (the last promoted one), so same-version siblings of that record do
not contribute price values. -/
theorem spec_c2_amended (records : List Record) (out : List LogicalRecord)
    (lr : LogicalRecord)
    (hwf : ∀ r ∈ records, (version_key r.version).isSome)
    (hagg : aggregate_records records = some out) (hm : lr ∈ out) :
    ∃ k, bucketOf records k ≠ [] ∧
      (∀ f ∈ DESCRIPTOR_FIELDS, ∀ r ∈ bucketOf records k,
        (∀ r2 ∈ bucketOf records k, keyD r2.version ≤ keyD r.version) →
        isEmptyV (getVal r f) = false → lookupOut (fieldName f) lr ≠ none) ∧
      (∃ r, r ∈ bucketOf records k ∧
        (∀ r2 ∈ bucketOf records k, keyD r2.version ≤ keyD r.version) ∧
        ∀ f ∈ PRICE_FIELDS ++ PRICE_META_FIELDS,
          lookupOut (fieldName f) lr =
            (if getVal r f = Value.vNone then none
             else some (OutValue.val (getVal r f)))) := by
  obtain ⟨k, e, hb, hne, hfe⟩ := mem_aggregate records out lr hagg hm
  obtain ⟨hs, hsort, rfl⟩ := finishEntry_elim e lr hfe
  have hpb : ∀ r ∈ bucketOf records k, (version_key r.version).isSome := by
    intro r hr
    exact hwf r (List.mem_filter.mp hr).1
  obtain ⟨rmax, hrm, hmax, hlat, hsnap, hdata⟩ :=
    bucket_final (bucketOf records k) hne hpb e hb
  refine ⟨k, hne, ?_, rmax, hrm, hmax, ?_⟩
  · intro f hfd r hr hrmax hrf
    have hfs : f ∈ STATIC_FIELDS := List.mem_cons_of_mem _ hfd
    have hnonempty := hdata f hfs r hr hrmax hrf
    rw [lookupOut_build_static e hs f hfs]
    unfold staticOut
    by_cases hv : e.data f = Value.vNone
    · rw [hv] at hnonempty
      simp [isEmptyV] at hnonempty
    · rw [if_neg hv]
      intro hcon
      cases hcon
  · intro f hf
    rw [lookupOut_build_pm e hs f hf]
    unfold pmOut
    rw [hsnap]
    by_cases hv : getVal rmax f = Value.vNone
    · rw [show (mkSnapshot rmax).fields f = none from by
        simp only [mkSnapshot]
        rw [if_neg (fun hc => hc.2 hv)]]
      simp [hv]
    · rw [show (mkSnapshot rmax).fields f = some (getVal rmax f) from by
        simp only [mkSnapshot]
        rw [if_pos ⟨hf, hv⟩]]

/-- Witness for the amended C2: in the two-version bucket the maximal record
"2.10" populates the product name and its price is the current one. -/
theorem spec_c2_amended_witness :
    ∃ k, bucketOf [recV9, recV10] k ≠ [] ∧
      (∀ f ∈ DESCRIPTOR_FIELDS, ∀ r ∈ bucketOf [recV9, recV10] k,
        (∀ r2 ∈ bucketOf [recV9, recV10] k, keyD r2.version ≤ keyD r.version) →
        isEmptyV (getVal r f) = false →
        lookupOut (fieldName f) (((aggregate_records [recV9, recV10]).getD []).headI) ≠ none) ∧
      (∃ r, r ∈ bucketOf [recV9, recV10] k ∧
        (∀ r2 ∈ bucketOf [recV9, recV10] k, keyD r2.version ≤ keyD r.version) ∧
        ∀ f ∈ PRICE_FIELDS ++ PRICE_META_FIELDS,
          lookupOut (fieldName f) (((aggregate_records [recV9, recV10]).getD []).headI) =
            (if getVal r f = Value.vNone then none
             else some (OutValue.val (getVal r f)))) :=
  spec_c2_amended [recV9, recV10] ((aggregate_records [recV9, recV10]).getD [])
    (((aggregate_records [recV9, recV10]).getD []).headI)
    (by decide) (by rfl) (by decide)

theorem lookupEntry_mem (k : List Value) (acc : List (List Value × Entry)) (e : Entry)
    (h : lookupEntry k acc = some e) : (k, e) ∈ acc := by
  induction acc with
  | nil => cases h
  | cons p rest ih =>
    obtain ⟨k0, e0⟩ := p
    by_cases hk : k0 = k
    · subst hk
      simp [lookupEntry] at h
      subst h
      exact List.mem_cons_self _ _
    · simp [lookupEntry, hk] at h
      exact List.mem_cons_of_mem _ (ih h)

/-- The grouping fold succeeds on well-formed versions, and every bucket of
the accumulator keeps a parseable latest version and parseable history
versions. -/
theorem aggFold_isSome : ∀ (rs : List Record) (acc : List (List Value × Entry)),
    (∀ r ∈ rs, (version_key r.version).isSome) →
    (∀ p ∈ acc, (∀ lv, p.2.latest_version = some lv → (version_key lv).isSome) ∧
      (∀ s ∈ p.2.history, (version_key s.version).isSome)) →
    ∃ acc2, aggFold acc rs = some acc2 ∧
      (∀ p ∈ acc2, (∀ lv, p.2.latest_version = some lv → (version_key lv).isSome) ∧
        (∀ s ∈ p.2.history, (version_key s.version).isSome)) := by
  intro rs
  induction rs with
  | nil =>
    intro acc _ hg
    exact ⟨acc, rfl, hg⟩
  | cons r rest ih =>
    intro acc hall hg
    have hr := hall r (List.mem_cons_self _ _)
    cases hl : lookupEntry (record_key r) acc with
    | none =>
      have hstep : aggStep acc r = some (acc ++ [(record_key r,
          promoteEntry { initEntry r with history := [mkSnapshot r] } r (mkSnapshot r))]) := by
        rw [aggStep_of_lookup_none acc r hl]
        rfl
      have hg2 : ∀ p ∈ acc ++ [(record_key r,
          promoteEntry { initEntry r with history := [mkSnapshot r] } r (mkSnapshot r))],
          (∀ lv, p.2.latest_version = some lv → (version_key lv).isSome) ∧
          (∀ s ∈ p.2.history, (version_key s.version).isSome) := by
        intro p hp
        rcases List.mem_append.mp hp with hp1 | hp2
        · exact hg p hp1
        · rcases List.mem_singleton.mp hp2 with rfl
          constructor
          · intro lv hlv
            injection hlv with hlv
            rw [← hlv]
            exact hr
          · intro s hsm
            rcases List.mem_singleton.mp hsm with rfl
            exact hr
      obtain ⟨acc2, hfold, hg3⟩ :=
        ih _ (fun r2 h2 => hall r2 (List.mem_cons_of_mem _ h2)) hg2
      refine ⟨acc2, ?_, hg3⟩
      unfold aggFold
      rw [hstep]
      exact hfold
    | some e =>
      have hge := hg _ (lookupEntry_mem _ _ _ hl)
      have hsome := entryStep_isSome e r (fun lv hlv => hge.1 lv hlv) hr
      cases he : entryStep e r with
      | none => rw [he] at hsome; cases hsome
      | some e2 =>
        have hstep : aggStep acc r = some (replaceEntry (record_key r) e2 acc) := by
          rw [aggStep_of_lookup_some acc r e hl, he]
          rfl
        have hg2 : ∀ p ∈ replaceEntry (record_key r) e2 acc,
            (∀ lv, p.2.latest_version = some lv → (version_key lv).isSome) ∧
            (∀ s ∈ p.2.history, (version_key s.version).isSome) := by
          intro p hp
          unfold replaceEntry at hp
          obtain ⟨q, hq, hqe⟩ := List.mem_map.mp hp
          by_cases hqk : q.1 = record_key r
          · rw [if_pos hqk] at hqe
            rw [← hqe]
            constructor
            · intro lv hlv
              rcases entryStep_elim e r e2 he with ⟨_, rfl⟩ | ⟨lv0, kr, kl, hl0, hkr, _, hcase⟩
              · injection hlv with hlv
                rw [← hlv]
                exact hr
              · rcases hcase with ⟨_, rfl⟩ | ⟨_, rfl⟩
                · injection hlv with hlv
                  rw [← hlv]
                  exact hr
                · exact hge.1 lv hlv
            · intro s hsm
              rw [entryStep_history e r e2 he] at hsm
              rcases List.mem_append.mp hsm with hsm1 | hsm2
              · exact hge.2 s hsm1
              · rcases List.mem_singleton.mp hsm2 with rfl
                exact hr
          · rw [if_neg hqk] at hqe
            rw [← hqe]
            exact hg q hq
        obtain ⟨acc2, hfold, hg3⟩ :=
          ih _ (fun r2 h2 => hall r2 (List.mem_cons_of_mem _ h2)) hg2
        refine ⟨acc2, ?_, hg3⟩
        unfold aggFold
        rw [hstep]
        exact hfold

theorem aggregate_isSome (records : List Record)
    (hall : ∀ r ∈ records, (version_key r.version).isSome) :
    (aggregate_records records).isSome := by
  obtain ⟨acc2, hfold, hg⟩ := aggFold_isSome records [] hall (by intro p hp; cases hp)
  have hfin : ∀ p ∈ acc2, (finishEntry p.2).isSome := by
    intro p hp
    have hhist := (hg p hp).2
    unfold finishEntry
    have hsort := sortHistory_isSome p.2.history hhist
    cases hs : sortHistory p.2.history with
    | none => rw [hs] at hsort; cases hsort
    | some hs2 => rfl
  obtain ⟨outs, houts⟩ := finishAll_isSome acc2 hfin
  simp [aggregate_records, hfold, houts]

theorem aggregate_none_of_bad (records : List Record) (r : Record) (hr : r ∈ records)
    (hbad : version_key r.version = none) : aggregate_records records = none := by
  cases hf : aggFold [] records with
  | none => simp [aggregate_records, hf]
  | some acc =>
    have hb := aggFold_bucket (record_key r) records [] acc hf
    have hrb : r ∈ bucketOf records (record_key r) := by
      unfold bucketOf
      rw [List.mem_filter]
      exact ⟨hr, by simp⟩
    cases hbk : bucketOf records (record_key r) with
    | nil => rw [hbk] at hrb; cases hrb
    | cons r0 rest =>
      rw [hbk] at hb
      cases hlk : lookupEntry (record_key r) acc with
      | none =>
        rw [hlk] at hb
        have h2 := bfold_none_cons r0 rest none hb
        obtain ⟨e1, hx⟩ := bfold_some_of_some rest _ none h2
        cases hx
      | some e1 =>
        rw [hlk] at hb
        have hhist : e1.history = (r0 :: rest).map mkSnapshot :=
          bfold_none_history (r0 :: rest) e1 (List.cons_ne_nil _ _) hb
        have hsm : mkSnapshot r ∈ e1.history := by
          rw [hhist]
          have hrb2 : r ∈ r0 :: rest := hbk ▸ hrb
          exact List.mem_map.mpr ⟨r, hrb2, rfl⟩
        have hdec : decorateHistory e1.history = none :=
          decorateHistory_eq_none e1.history (mkSnapshot r) hsm hbad
        have hfe : finishEntry e1 = none := by
          unfold finishEntry sortHistory
          rw [hdec]
          rfl
        have hmem : (record_key r, e1) ∈ acc := lookupEntry_mem _ _ _ hlk
        have hfa : finishAll acc = none := finishAll_none_of_mem acc (record_key r, e1) hmem hfe
        simp [aggregate_records, hf, hfa]

/-- Claim C3 counterexample: a record whose version is "-1" — not a
dot-separated sequence of non-negative integers — does not make
aggregate_records raise: Python int accepts the sign, the component parses
as the negative integer -1, and a result is returned. -/
theorem spec_c3_counterexample :
    (aggregate_records [recNeg]).isSome = true ∧ version_key "-1" = some [-1] := by
  refine ⟨by decide, by decide⟩

/-- Claim C3 (amended): aggregate_records fails exactly when some record
carries a version label with a component that Python int cannot parse, such
as an empty or non-numeric token; labels made of dot-separated signed
integers, negative components included, are accepted and the run returns a
result. -/
theorem spec_c3_amended (records : List Record) :
    aggregate_records records = none ↔ ∃ r ∈ records, version_key r.version = none := by
  constructor
  · intro hnone
    by_contra hno
    push_neg at hno
    have hall : ∀ r ∈ records, (version_key r.version).isSome := by
      intro r hr
      cases hv : version_key r.version with
      | none => exact absurd hv (hno r hr)
      | some k => rfl
    have hsome := aggregate_isSome records hall
    rw [hnone] at hsome
    cases hsome
  · rintro ⟨r, hr, hbad⟩
    exact aggregate_none_of_bad records r hr hbad

/-- Claim C6: one grouping step updates the bucket descriptor snapshot,
latest_version and latest price snapshot exactly when the bucket is new or
the incoming version key is greater than or equal to the current latest
(so for an equal version the later record wins), and the descriptor update
is field-by-field prefer-incoming-unless-empty; otherwise only the history
grows. -/
theorem spec_c6 (acc : List (List Value × Entry)) (r : Record) :
    (lookupEntry (record_key r) acc = none →
      aggStep acc r = some (acc ++ [(record_key r,
        promoteEntry { initEntry r with history := [mkSnapshot r] } r (mkSnapshot r))])) ∧
    (∀ e lv kr kl, lookupEntry (record_key r) acc = some e →
      e.latest_version = some lv → version_key r.version = some kr →
      version_key lv = some kl →
      aggStep acc r = some (replaceEntry (record_key r)
        (if kl ≤ kr then
          promoteEntry { e with history := e.history ++ [mkSnapshot r] } r (mkSnapshot r)
         else { e with history := e.history ++ [mkSnapshot r] }) acc)) ∧
    (∀ e snap f, f ∈ STATIC_FIELDS →
      (promoteEntry e r snap).data f = pick_best (getVal r f) (e.data f)) ∧
    (∀ e snap, (promoteEntry e r snap).latest_version = some r.version ∧
      (promoteEntry e r snap).latest_snapshot = snap) := by
  refine ⟨?_, ?_, ?_, ?_⟩
  · intro hl
    rw [aggStep_of_lookup_none acc r hl]
    rfl
  · intro e lv kr kl hl hlv hkr hkl
    rw [aggStep_of_lookup_some acc r e hl]
    simp only [entryStep, hlv, hkr, hkl]
    rfl
  · intro e snap f hfs
    show (if f ∈ STATIC_FIELDS then pick_best (getVal r f) (e.data f) else e.data f) = _
    rw [if_pos hfs]
  · intro e snap
    exact ⟨rfl, rfl⟩

/-- Witness for C6: stepping the recV9 bucket with the higher-version record
recV10 rewrites the bucket through the promotion branch. -/
theorem spec_c6_witness :
    aggStep accW recV10 = some (replaceEntry (record_key recV10)
      (if ([2, 9] : List Int) ≤ [2, 10] then
        promoteEntry { entryW with history := entryW.history ++ [mkSnapshot recV10] }
          recV10 (mkSnapshot recV10)
       else { entryW with history := entryW.history ++ [mkSnapshot recV10] }) accW) :=
  (spec_c6 accW recV10).2.1 entryW "2.9" [2, 10] [2, 9]
    (by decide) (by decide) (by decide) (by decide)

/-- Claim C9 counterexample: a record populating only serial_number yields a
Logical Record whose key set contains "serial_number", which is neither a
descriptor field nor a price/meta field nor one of the two fixed keys. -/
theorem spec_c9_counterexample :
    (aggregate_records [recSerial]).map (fun out => out.map (fun lr => lr.map Prod.fst))
      = some [["serial_number", "latest_version", "version_history"]] ∧
    "serial_number" ∉ DESCRIPTOR_FIELDS.map fieldName ∧
    "serial_number" ∉ (PRICE_FIELDS ++ PRICE_META_FIELDS).map fieldName ∧
    ("serial_number" : String) ≠ "latest_version" ∧
    ("serial_number" : String) ≠ "version_history" := by
  refine ⟨by decide, by decide, by decide, by decide, by decide⟩

theorem mem_fieldSection (fs : List RecordField) (g : RecordField → Option OutValue)
    (p : String × OutValue) (hp : p ∈ fieldSection fs g) :
    ∃ f ∈ fs, p.1 = fieldName f ∧ g f = some p.2 := by
  unfold fieldSection at hp
  obtain ⟨f, hf, hfp⟩ := List.mem_filterMap.mp hp
  cases hg : g f with
  | none => rw [hg] at hfp; cases hfp
  | some v =>
    rw [hg] at hfp
    simp only [Option.map_some'] at hfp
    injection hfp with hfp
    subst hfp
    exact ⟨f, hf, rfl, hg⟩

/-- Claim C9 (amended): every key of a Logical Record is a populated static
field (serial_number or a descriptor field), a populated price/meta field,
latest_version, or version_history, and the two fixed keys are always
present; no other key occurs. -/
theorem spec_c9_amended (records : List Record) (out : List LogicalRecord)
    (lr : LogicalRecord) (hagg : aggregate_records records = some out) (hm : lr ∈ out) :
    lookupOut "latest_version" lr ≠ none ∧ lookupOut "version_history" lr ≠ none ∧
    ∀ p ∈ lr, (∃ f ∈ STATIC_FIELDS, p.1 = fieldName f ∧
        ∃ v, p.2 = OutValue.val v ∧ v ≠ Value.vNone) ∨
      (∃ f ∈ PRICE_FIELDS ++ PRICE_META_FIELDS, p.1 = fieldName f ∧
        ∃ v, p.2 = OutValue.val v ∧ v ≠ Value.vNone) ∨
      (∃ lv, p = ("latest_version", OutValue.ver lv)) ∨
      (∃ h, p = ("version_history", OutValue.hist h)) := by
  obtain ⟨k, e, hb, hne, hfe⟩ := mem_aggregate records out lr hagg hm
  obtain ⟨hs, hsort, rfl⟩ := finishEntry_elim e lr hfe
  refine ⟨?_, ?_, ?_⟩
  · rw [lookupOut_build_latest]
    intro hcon
    cases hcon
  · rw [lookupOut_build_history]
    intro hcon
    cases hcon
  · intro p hp
    unfold buildRecordData at hp
    rcases List.mem_append.mp hp with hp1 | hp23
    · left
      obtain ⟨f, hf, hpn, hgf⟩ := mem_fieldSection STATIC_FIELDS (staticOut e) p hp1
      refine ⟨f, hf, hpn, ?_⟩
      unfold staticOut at hgf
      by_cases hv : e.data f = Value.vNone
      · rw [if_pos hv] at hgf
        cases hgf
      · rw [if_neg hv] at hgf
        injection hgf with hgf
        exact ⟨e.data f, hgf.symm, hv⟩
    · rcases List.mem_append.mp hp23 with hp2 | hp3
      · right
        left
        obtain ⟨f, hf, hpn, hgf⟩ :=
          mem_fieldSection (PRICE_FIELDS ++ PRICE_META_FIELDS) (pmOut e) p hp2
        refine ⟨f, hf, hpn, ?_⟩
        unfold pmOut at hgf
        cases hval : e.latest_snapshot.fields f with
        | none => rw [hval] at hgf; cases hgf
        | some v =>
          rw [hval] at hgf
          change (if v = Value.vNone then none else some (OutValue.val v)) = some p.2 at hgf
          by_cases hv : v = Value.vNone
          · rw [if_pos hv] at hgf
            cases hgf
          · rw [if_neg hv] at hgf
            injection hgf with hgf
            exact ⟨v, hgf.symm, hv⟩
      · right
        right
        rcases List.mem_cons.mp hp3 with rfl | hp4
        · exact Or.inl ⟨e.latest_version, rfl⟩
        rcases List.mem_cons.mp hp4 with rfl | hp5
        · exact Or.inr ⟨hs, rfl⟩
        · cases hp5

/-- Witness for the amended C9 at the serial-number-only input. -/
theorem spec_c9_amended_witness :
    lookupOut "latest_version" (((aggregate_records [recSerial]).getD []).headI) ≠ none ∧
    lookupOut "version_history" (((aggregate_records [recSerial]).getD []).headI) ≠ none ∧
    ∀ p ∈ ((aggregate_records [recSerial]).getD []).headI,
      (∃ f ∈ STATIC_FIELDS, p.1 = fieldName f ∧
        ∃ v, p.2 = OutValue.val v ∧ v ≠ Value.vNone) ∨
      (∃ f ∈ PRICE_FIELDS ++ PRICE_META_FIELDS, p.1 = fieldName f ∧
        ∃ v, p.2 = OutValue.val v ∧ v ≠ Value.vNone) ∨
      (∃ lv, p = ("latest_version", OutValue.ver lv)) ∨
      (∃ h, p = ("version_history", OutValue.hist h)) :=
  spec_c9_amended [recSerial] ((aggregate_records [recSerial]).getD [])
    (((aggregate_records [recSerial]).getD []).headI) (by rfl) (by decide)
